import Mathlib

/-!
# clog: a leveled logging facade

A shallow embedding of `clog.go` (package `zlog`): the configuration object, the
resolution of the four format choices, the construction of the logger (`New`), the
bootstrap of the configuration (`buildLogConfig`, `Init`), the severity-gated
`check` pipeline and the seven severity functions.

Side effects (sink writes, caller lookup, stack capture, abort, terminate) are made
explicit as a list of `Effect`s produced by one call, in program order.  The pieces of
the zap library and of the Go runtime the file calls into (`zapcore.Level`,
`zapcore.NewTee`, `Core.Check`, `CheckedEntry.Should/AddCore/Write`, `fmt.Sprint`) are
embedded next to the code that uses them; values that come from the outside world
(clock, random identifier, stack frames, file system) are explicit inputs.
-/

namespace Clog

/-! ## Constants of the package -/

def LOG : String := "log"
def DEBUG : String := "debug"
def INFO : String := "info"
def ERROR : String := "error"
def WARN : String := "warn"
def DEFAULT : String := "default"
def CONSOLE : String := "console"

/-! ## zapcore levels -/

/-- The type `zapcore.Level` is a signed machine integer; the named levels are the
constants below. -/
abbrev Level := Int

def DebugLevel : Level := -1
def InfoLevel : Level := 0
def WarnLevel : Level := 1
def ErrorLevel : Level := 2
def DPanicLevel : Level := 3
def PanicLevel : Level := 4
def FatalLevel : Level := 5

/-- Method `Level.Enabled`: `func (l Level) Enabled(lvl Level) bool { return lvl >= l }`. -/
def LevelEnabled (l lvl : Level) : Bool := decide (l ≤ lvl)

/-! ## Configuration object and encoder configuration -/

/-- A Go `map[string]string`, as an association list read by first match. -/
abbrev StrMap := List (String × String)

/-- Map indexing `m[k]`: the zero value (the empty string) when the key is absent. -/
def StrMap.get (m : StrMap) (k : String) : String :=
  match m.lookup k with
  | some v => v
  | none => ""

structure CooLogConfig where
  Dev : Bool
  Level : String
  Encoder : List String
  Encode : StrMap
  Key : StrMap
  OutPuts : List String
deriving DecidableEq, Repr

inductive LevelEncoder where
  | CapitalLevelEncoder
  | CapitalColorLevelEncoder
  | LowercaseColorLevelEncoder
  | LowercaseLevelEncoder
deriving DecidableEq, Repr

inductive TimeEncoder where
  | logEncodeTime
  | ISO8601TimeEncoder
  | EpochMillisTimeEncoder
  | EpochNanosTimeEncoder
  | EpochTimeEncoder
deriving DecidableEq, Repr

inductive DurationEncoder where
  | StringDurationEncoder
  | NanosDurationEncoder
  | SecondsDurationEncoder
deriving DecidableEq, Repr

inductive CallerEncoder where
  | FullCallerEncoder
  | ShortCallerEncoder
deriving DecidableEq, Repr

/-- The struct `zapcore.EncoderConfig`, restricted to the fields the package sets.  The
four encoder fields are function values in Go; `none` is the nil zero value. -/
structure EncoderConfig where
  MessageKey : String
  LevelKey : String
  TimeKey : String
  NameKey : String
  CallerKey : String
  StacktraceKey : String
  LineEnding : String
  EncodeLevel : Option LevelEncoder
  EncodeTime : Option TimeEncoder
  EncodeDuration : Option DurationEncoder
  EncodeCaller : Option CallerEncoder
deriving DecidableEq, Repr

/-- The zero value of the package variable `encoderConfig`. -/
def EncoderConfig.zero : EncoderConfig :=
  { MessageKey := "", LevelKey := "", TimeKey := "", NameKey := "", CallerKey := "",
    StacktraceKey := "", LineEnding := "", EncodeLevel := none, EncodeTime := none,
    EncodeDuration := none, EncodeCaller := none }

/-- Function `defaultLogConfig`: the value it stores in `cooConf`. -/
def defaultLogConfig : CooLogConfig :=
  { Dev := true
    Level := DEBUG
    Encoder := [CONSOLE]
    Encode := [("time", "local"), ("level", "capital"), ("duration", "string"),
               ("caller", "short")]
    Key := [("name", "logger"), ("time", "time"), ("level", "level"),
            ("caller", "caller"), ("message", "msg"), ("stacktrace", "stacktrace")]
    OutPuts := ["stderr"] }

/-- Method `lvlEncoder`: the switch on `clog.Encode["level"]`. -/
def lvlEncoder (clog : CooLogConfig) (encoderConfig : EncoderConfig) : EncoderConfig :=
  let lvl := clog.Encode.get "level"
  if lvl = "capital" then
    { encoderConfig with EncodeLevel := some .CapitalLevelEncoder }
  else if lvl = "capitalColor" then
    { encoderConfig with EncodeLevel := some .CapitalColorLevelEncoder }
  else if lvl = "color" then
    { encoderConfig with EncodeLevel := some .LowercaseColorLevelEncoder }
  else
    { encoderConfig with EncodeLevel := some .LowercaseLevelEncoder }

/-- Method `timeEncoder`: the switch on `clog.Encode["time"]`. -/
def timeEncoder (clog : CooLogConfig) (encoderConfig : EncoderConfig) : EncoderConfig :=
  let time := clog.Encode.get "time"
  if time = "local" then
    { encoderConfig with EncodeTime := some .logEncodeTime }
  else if time = "iso8601" ∨ time = "ISO8601" then
    { encoderConfig with EncodeTime := some .ISO8601TimeEncoder }
  else if time = "millis" then
    { encoderConfig with EncodeTime := some .EpochMillisTimeEncoder }
  else if time = "nanos" then
    { encoderConfig with EncodeTime := some .EpochNanosTimeEncoder }
  else
    { encoderConfig with EncodeTime := some .EpochTimeEncoder }

/-- Method `durEncoder`: the switch on `clog.Encode["duration"]`. -/
def durEncoder (clog : CooLogConfig) (encoderConfig : EncoderConfig) : EncoderConfig :=
  let dur := clog.Encode.get "duration"
  if dur = "string" then
    { encoderConfig with EncodeDuration := some .StringDurationEncoder }
  else if dur = "nanos" then
    { encoderConfig with EncodeDuration := some .NanosDurationEncoder }
  else
    { encoderConfig with EncodeDuration := some .SecondsDurationEncoder }

/-- Method `callerEncoder`: the switch on `clog.Encode["caller"]`. -/
def callerEncoder (clog : CooLogConfig) (encoderConfig : EncoderConfig) : EncoderConfig :=
  let caller := clog.Encode.get "caller"
  if caller = "full" then
    { encoderConfig with EncodeCaller := some .FullCallerEncoder }
  else
    { encoderConfig with EncodeCaller := some .ShortCallerEncoder }

/-! ## Entries, cores and checked entries (zapcore) -/

/-- The struct `zapcore.EntryCaller`. -/
structure EntryCaller where
  Defined : Bool
  File : String
  Line : Int
deriving DecidableEq, Repr

/-- The zero value `EntryCaller{}`. -/
def EntryCaller.zero : EntryCaller := { Defined := false, File := "", Line := 0 }

/-- Function `zapcore.NewEntryCaller(pc, file, line, ok)`, applied to the result of
`runtime.Caller`; `none` is `ok == false`. -/
def NewEntryCaller (r : Option (String × Int)) : EntryCaller :=
  match r with
  | none => EntryCaller.zero
  | some (file, line) => { Defined := true, File := file, Line := line }

/-- The struct `zapcore.Entry`; `Time` is a clock reading. -/
structure Entry where
  Level : Clog.Level
  Time : Nat
  LoggerName : String
  Message : String
  Caller : EntryCaller
  Stack : String
deriving DecidableEq, Repr

inductive EncoderKind where
  | console
  | json
deriving DecidableEq, Repr

/-- An encoder built by `zapcore.NewConsoleEncoder(cfg)` or `zapcore.NewJSONEncoder(cfg)`. -/
structure Encoder where
  kind : EncoderKind
  cfg : EncoderConfig
deriving DecidableEq, Repr

/-- The core built by `zapcore.NewCore(enc, ws, enab)`: an encoder, a write syncer and a
level enabler.  The write syncer is the interface value returned by `zap.Open`: `none`
is the nil interface, `some ds` the combined syncer over the opened destinations `ds`. -/
structure ioCore where
  enab : Level
  enc : Encoder
  out : Option (List String)
deriving DecidableEq, Repr

inductive CheckWriteAction where
  | WriteThenNoop
  | WriteThenPanic
  | WriteThenFatal
deriving DecidableEq, Repr

/-- The struct `zapcore.CheckedEntry`; `ErrorOutput` is a nilable write syncer. -/
structure CheckedEntry where
  Entry : Clog.Entry
  ErrorOutput : Option String
  should : CheckWriteAction
  cores : List ioCore
deriving DecidableEq, Repr

/-- A fresh checked entry from the pool (`getCheckedEntry` after `reset`), holding `ent`. -/
def CheckedEntry.fresh (ent : Clog.Entry) : CheckedEntry :=
  { Entry := ent, ErrorOutput := none, should := .WriteThenNoop, cores := [] }

/-- Method `(*CheckedEntry).Should`, on a nilable receiver: a nil receiver is replaced by
a fresh entry, then the action is recorded. -/
def CheckedEntry.Should (ce : Option CheckedEntry) (ent : Clog.Entry)
    (should : CheckWriteAction) : CheckedEntry :=
  match ce with
  | none => { CheckedEntry.fresh ent with should := should }
  | some ce => { ce with should := should }

/-- Method `(*CheckedEntry).AddCore`, on a nilable receiver. -/
def CheckedEntry.AddCore (ce : Option CheckedEntry) (ent : Clog.Entry) (core : ioCore) :
    CheckedEntry :=
  match ce with
  | none => { CheckedEntry.fresh ent with cores := [core] }
  | some ce => { ce with cores := ce.cores ++ [core] }

/-- Method `(*ioCore).Enabled`. -/
def ioCore.Enabled (c : ioCore) (lvl : Level) : Bool := LevelEnabled c.enab lvl

/-- Method `(*ioCore).Check`: add the core to the checked entry when the level is enabled. -/
def ioCore.Check (c : ioCore) (ent : Entry) (ce : Option CheckedEntry) :
    Option CheckedEntry :=
  if c.Enabled ent.Level then some (CheckedEntry.AddCore ce ent c) else ce

/-- The three shapes of core `zapcore.NewTee` can return. -/
inductive Core where
  | nop
  | io (c : ioCore)
  | multi (mc : List ioCore)
deriving DecidableEq, Repr

/-- Function `zapcore.NewTee`: no core gives the no-op core, one core gives that core,
several give a `multiCore`. -/
def NewTee (cores : List ioCore) : Core :=
  match cores with
  | [] => .nop
  | [c] => .io c
  | _ => .multi cores

/-- The bindings held by a core, in order. -/
def Core.cores : Core → List ioCore
  | .nop => []
  | .io c => [c]
  | .multi mc => mc

/-- The loop of `multiCore.Check`: `for i := range mc { ce = mc[i].Check(ent, ce) }`. -/
def multiCheck (ent : Entry) : List ioCore → Option CheckedEntry → Option CheckedEntry
  | [], ce => ce
  | c :: mc, ce => multiCheck ent mc (c.Check ent ce)

/-- Method `Core.Check` for the three shapes. -/
def Core.Check (core : Core) (ent : Entry) (ce : Option CheckedEntry) :
    Option CheckedEntry :=
  match core with
  | .nop => ce
  | .io c => c.Check ent ce
  | .multi mc => multiCheck ent mc ce

/-- Method `Core.Enabled` for the three shapes: some bound gate enables the level. -/
def Core.Enabled (core : Core) (lvl : Level) : Bool :=
  match core with
  | .nop => false
  | .io c => c.Enabled lvl
  | .multi mc => mc.any (fun c => c.Enabled lvl)

/-! ## The logger and its construction -/

structure CooLogger where
  core : Core
  development : Bool
  name : String
  errorOutput : String
  addCaller : Bool
  addStack : Level
  callerSkip : Int
  appName : String
deriving DecidableEq, Repr

/-- The switch on `cooConf.Level` in `New`: the threshold given to every core. -/
def newLevel (level : String) : Level :=
  if level = DEBUG then DebugLevel
  else if level = WARN then WarnLevel
  else if level = ERROR then ErrorLevel
  else InfoLevel

/-- The loop over `cooConf.OutPuts` in `New`; `stamp i` is the formatted clock reading
taken when the element at index `i` is visited. -/
def newOutputs (app : String) (stamp : Nat → String) : Nat → List String → List String
  | _, [] => []
  | i, p :: ps =>
    (if p = DEFAULT then app ++ "_" ++ stamp i ++ ".log" else p)
      :: newOutputs app stamp (i + 1) ps

/-- The loop over `cooConf.Encoder` in `New`; `JSON` is the constant `utils.JSON`. -/
def newCores (JSON : String) (encoderConfig : EncoderConfig) (sink : Option (List String))
    (lvl : Level) : List String → List ioCore
  | [] => []
  | e :: es =>
    if e = CONSOLE then
      { enab := lvl, enc := { kind := .console, cfg := encoderConfig }, out := sink }
        :: newCores JSON encoderConfig sink lvl es
    else if e = JSON then
      { enab := lvl, enc := { kind := .json, cfg := encoderConfig }, out := sink }
        :: newCores JSON encoderConfig sink lvl es
    else newCores JSON encoderConfig sink lvl es

/-- Function `zap.Open(paths...)`, first result: the combined write syncer over all the
paths when every one of them opens, the nil interface as soon as one does not (the
error result tells which).  The oracle `opens` says which paths can be opened. -/
def zapOpen (opens : String → Bool) (paths : List String) : Option (List String) :=
  if paths.all opens then some paths else none

/-- The value of the package variable `encoderConfig` after the first part of `New`. -/
def newEncoderConfig (cooConf : CooLogConfig) (encoderConfig : EncoderConfig) :
    EncoderConfig :=
  let encoderConfig := { encoderConfig with
    NameKey := cooConf.Key.get "name"
    TimeKey := cooConf.Key.get "time"
    LevelKey := cooConf.Key.get "level"
    CallerKey := cooConf.Key.get "caller"
    MessageKey := cooConf.Key.get "message"
    StacktraceKey := cooConf.Key.get "stacktrace" }
  let encoderConfig := { encoderConfig with LineEnding := "\n" }
  let encoderConfig := timeEncoder cooConf encoderConfig
  let encoderConfig := lvlEncoder cooConf encoderConfig
  let encoderConfig := durEncoder cooConf encoderConfig
  callerEncoder cooConf encoderConfig

/-- Function `New`, for a present configuration `cooConf`.  `JSON` is `utils.JSON`,
`stamp` the clock, `opens` the file system seen by `zap.Open`, `encoderConfig` the
current value of the package variable.  The error result of `zap.Open` is discarded
(`sink, _, _ := zap.Open(outputs...)`), so `sink` is nil when a destination does not
open.  The fields `name` and `callerSkip` are not set by the composite literal and keep
their zero values. -/
def New (JSON : String) (stamp : Nat → String) (opens : String → Bool)
    (encoderConfig : EncoderConfig) (cooConf : CooLogConfig) (app : String) : CooLogger :=
  let encoderConfig := newEncoderConfig cooConf encoderConfig
  let lvl := newLevel cooConf.Level
  let outputs := newOutputs app stamp 0 cooConf.OutPuts
  let sink := zapOpen opens outputs
  let cores := newCores JSON encoderConfig sink lvl cooConf.Encoder
  { core := NewTee cores
    development := cooConf.Dev
    name := ""
    errorOutput := "stderr"
    addStack := FatalLevel + 1
    addCaller := true
    callerSkip := 0
    appName := app }

/-! ## Bootstrap of the configuration -/

/-- The outside world of `buildLogConfig`: the constants and the file lookup of package
`utils`, the file system, and the two unmarshalers.  An unmarshaler receives the bytes
and the current value of the pointer `cooConf` and gives the value of the pointer
afterwards (its error result is dropped by the caller). -/
structure Boot where
  JSON : String
  YAML : String
  AppFile : String → String → String → String → Option String
  ReadFile : String → Option String
  jsonUnmarshal : String → Option CooLogConfig → Option CooLogConfig
  yamlUnmarshal : String → Option CooLogConfig → Option CooLogConfig

/-- Function `buildLogConfig`: the value of the pointer `cooConf` afterwards, from its
value `cooConf` before (`none` is nil). -/
def buildLogConfig (w : Boot) (cooConf : Option CooLogConfig)
    (runMode profileType : String) : Option CooLogConfig :=
  let logfile := "log." ++ profileType
  match w.AppFile "config" runMode profileType logfile with
  | none => some defaultLogConfig
  | some conf =>
    let buf := match w.ReadFile conf with
      | some b => b
      | none => ""
    if profileType = w.JSON then w.jsonUnmarshal buf cooConf
    else if profileType = w.YAML then w.yamlUnmarshal buf cooConf
    else cooConf

/-- Function `Init`: `none` is the run-time panic of `New` dereferencing a nil `cooConf`
(its first statement reads `cooConf.Key`). -/
def Init (w : Boot) (stamp : Nat → String) (opens : String → Bool)
    (encoderConfig : EncoderConfig) (cooConf : Option CooLogConfig)
    (appName runMode profileType : String) : Option CooLogger :=
  match buildLogConfig w cooConf runMode profileType with
  | none => none
  | some conf => some (New w.JSON stamp opens encoderConfig conf appName)

/-! ## Effects of one log call -/

/-- What one call reads from the outside world: the clock (`time.Now()`), the fresh
identifier (`uuid.NewV4`), the frame lookup (`runtime.Caller(skip)`, `none` when it
reports no frame), the stack text (`zap.Stack`), and which destinations refuse a write. -/
structure Runtime where
  now : Nat
  uuid : String
  Caller : Int → Option (String × Int)
  Stack : String
  writeFails : String → Bool

/-- The observable effects of a log call, in program order.  `panic msg` and `exit` are
the two recorded actions (`panic(msg)` and `exit.Exit()` at the end of `Write`);
`nilDeref` is the run-time panic of a method call on a nil interface or pointer, which
ends the call on the spot. -/
inductive Effect where
  | callerLookup (skip : Int)
  | stackCapture
  | errOutput (errorOutput : String) (text : String)
  | errSync (errorOutput : String)
  | write (dest : String) (enc : Encoder) (ent : Entry)
  | sync (dest : String)
  | panic (msg : String)
  | exit
  | nilDeref
deriving DecidableEq, Repr

/-- An effect is an escalation when it aborts with a panic or terminates the process. -/
def Effect.isEscalation : Effect → Bool
  | .panic _ => true
  | .exit => true
  | _ => false

/-- An effect is a sink write. -/
def Effect.isWrite : Effect → Bool
  | .write _ _ _ => true
  | _ => false

/-- An effect is a write to the destination `d`. -/
def Effect.isWriteTo (d : String) : Effect → Bool
  | .write dest _ _ => decide (dest = d)
  | _ => false

/-- The switch on `ent.Level` in `check`. -/
def escalate (development : Bool) (ent : Entry) (ce : Option CheckedEntry) :
    Option CheckedEntry :=
  if ent.Level = PanicLevel then
    some (CheckedEntry.Should ce ent .WriteThenPanic)
  else if ent.Level = FatalLevel then
    some (CheckedEntry.Should ce ent .WriteThenFatal)
  else if ent.Level = DPanicLevel then
    if development then some (CheckedEntry.Should ce ent .WriteThenPanic) else ce
  else ce

/-- Method `check`: the checked entry (`none` is nil) and the effects performed.  The
package-level logger `Coo` is the one the body reads. -/
def check (Coo : CooLogger) (rt : Runtime) (lvl : Level) (msg : String) :
    Option CheckedEntry × List Effect :=
  let callerSkipOffset : Int := 2
  let ent : Entry :=
    { LoggerName := Coo.name ++ rt.uuid
      Time := rt.now
      Level := lvl
      Message := msg
      Caller := EntryCaller.zero
      Stack := "" }
  let ce := Coo.core.Check ent none
  let willWrite := ce.isSome
  let ce := escalate Coo.development ent ce
  if !willWrite then (ce, [])
  else
    match ce with
    | none => (none, [Effect.nilDeref])
    | some ce =>
      let ce := { ce with ErrorOutput := some Coo.errorOutput }
      let r : CheckedEntry × List Effect :=
        if Coo.addCaller then
          let skip := Coo.callerSkip + callerSkipOffset
          let caller := NewEntryCaller (rt.Caller skip)
          let ce := { ce with Entry := { ce.Entry with Caller := caller } }
          if !caller.Defined then
            (ce, [Effect.callerLookup skip,
                  Effect.errOutput Coo.errorOutput "Logger.check error: failed to get caller",
                  Effect.errSync Coo.errorOutput])
          else (ce, [Effect.callerLookup skip])
        else (ce, [])
      let ce := r.1
      if LevelEnabled Coo.addStack ce.Entry.Level then
        (some { ce with Entry := { ce.Entry with Stack := rt.Stack } },
          r.2 ++ [Effect.stackCapture])
      else (some ce, r.2)

/-- Method `(*ioCore).Write`: the entry is encoded and `c.out.Write` is called.  On a
nil `out` the call is a nil dereference (first component `none`); otherwise the bytes go
to every destination of the syncer, and when no write failed and the level is above
`ErrorLevel` the syncer is synced.  `some err` tells whether an error is returned. -/
def ioCore.Write (c : ioCore) (rt : Runtime) (ent : Entry) : Option Bool × List Effect :=
  match c.out with
  | none => (none, [Effect.nilDeref])
  | some out =>
    let ws := out.map (fun d => Effect.write d c.enc ent)
    if out.any rt.writeFails then (some true, ws)
    else if ent.Level > ErrorLevel then (some false, ws ++ out.map Effect.sync)
    else (some false, ws)

/-- The loop of `(*CheckedEntry).Write` over `ce.cores`, collecting the errors; a
run-time panic in one core ends the loop. -/
def writeCores (rt : Runtime) (ent : Entry) : List ioCore → Option Bool × List Effect
  | [] => (some false, [])
  | c :: cs =>
    match c.Write rt ent with
    | (none, t) => (none, t)
    | (some err, t) =>
      match writeCores rt ent cs with
      | (none, ts) => (none, t ++ ts)
      | (some errs, ts) => (some (err || errs), t ++ ts)

/-- The final switch of `(*CheckedEntry).Write` on the recorded action. -/
def actionEffects (should : CheckWriteAction) (msg : String) : List Effect :=
  match should with
  | .WriteThenPanic => [Effect.panic msg]
  | .WriteThenFatal => [Effect.exit]
  | .WriteThenNoop => []

/-- The report of `(*CheckedEntry).Write` on `ErrorOutput` when a core returned an error. -/
def reportEffects (errorOutput : Option String) (err : Bool) : List Effect :=
  match errorOutput with
  | some eo => if err then [Effect.errOutput eo "write error", Effect.errSync eo] else []
  | none => []

/-- Method `(*CheckedEntry).Write` on a non-nil, fresh entry: write to every core, report
a write error on `ErrorOutput` when there is one, then run the recorded action.  A
run-time panic in the loop ends the call before the report and the action. -/
def CheckedEntry.Write (ce : CheckedEntry) (rt : Runtime) : List Effect :=
  match writeCores rt ce.Entry ce.cores with
  | (none, t) => t
  | (some err, t) =>
    t ++ reportEffects ce.ErrorOutput err ++ actionEffects ce.should ce.Entry.Message

/-- The statement shared by the seven severity functions:
`if ce := Coo.check(lvl, msg); ce != nil { ce.Write() }`. -/
def logCall (Coo : CooLogger) (rt : Runtime) (lvl : Level) (msg : String) : List Effect :=
  match check Coo rt lvl msg with
  | (none, effs) => effs
  | (some ce, effs) => effs ++ ce.Write rt

/-! ## Message text: `fmt.Sprint` -/

/-- An argument of a severity function, of the empty interface type and so of any Go
type, seen through the two things `doPrint` reads of it: `isString` is the test
`arg != nil && reflect.TypeOf(arg).Kind() == reflect.String`, and `text` is what
`printArg(arg, v)` appends to the buffer, the default formatting of the value. -/
structure Value where
  isString : Bool
  text : String
deriving DecidableEq, Repr

/-- A Go `string`. -/
def Value.str (s : String) : Value := { isString := true, text := s }

/-- A Go integer: decimal digits, with a minus sign when negative. -/
def Value.int (i : Int) : Value := { isString := false, text := toString i }

/-- A Go `bool`. -/
def Value.bool (b : Bool) : Value :=
  { isString := false, text := if b then "true" else "false" }

/-- The nil interface value. -/
def Value.nil : Value := { isString := false, text := "<nil>" }

/-- An `error` value that is not of string kind: the default formatting is its `Error()`
text. -/
def Value.error (msg : String) : Value := { isString := false, text := msg }

/-- Default formatting (verb v) of one argument: `printArg(arg, v)`. -/
def printArg (arg : Value) : String := arg.text

/-- The loop of `(*pp).doPrint`: a space is added between two operands when neither is
a string. -/
def doPrint : List Value → Nat → Bool → String → String
  | [], _, _, buf => buf
  | arg :: rest, argNum, prevString, buf =>
    let isString := arg.isString
    let buf := if argNum > 0 && !isString && !prevString then buf ++ " " else buf
    let buf := buf ++ printArg arg
    doPrint rest (argNum + 1) isString buf

/-- Function `fmt.Sprint`. -/
def Sprint (a : List Value) : String := doPrint a 0 false ""

/-! ## The seven severity functions -/

def Debug (Coo : CooLogger) (rt : Runtime) (details : List Value) : List Effect :=
  logCall Coo rt DebugLevel (Sprint details)

def Info (Coo : CooLogger) (rt : Runtime) (details : List Value) : List Effect :=
  logCall Coo rt InfoLevel (Sprint details)

def Warn (Coo : CooLogger) (rt : Runtime) (details : List Value) : List Effect :=
  logCall Coo rt WarnLevel (Sprint details)

def Error (Coo : CooLogger) (rt : Runtime) (details : List Value) : List Effect :=
  logCall Coo rt ErrorLevel (Sprint details)

def DPanic (Coo : CooLogger) (rt : Runtime) (details : List Value) : List Effect :=
  logCall Coo rt DPanicLevel (Sprint details)

def Panic (Coo : CooLogger) (rt : Runtime) (details : List Value) : List Effect :=
  logCall Coo rt PanicLevel (Sprint details)

def Fatal (Coo : CooLogger) (rt : Runtime) (details : List Value) : List Effect :=
  logCall Coo rt FatalLevel (Sprint details)

/-! ## Definitions used to state the properties -/

/-- The escalation action the specification attaches to a severity: Panic aborts, Fatal
terminates, DevPanic aborts in development mode only, every other severity has none. -/
def specAction (development : Bool) (lvl : Level) : CheckWriteAction :=
  if lvl = PanicLevel then .WriteThenPanic
  else if lvl = FatalLevel then .WriteThenFatal
  else if lvl = DPanicLevel ∧ development = true then .WriteThenPanic
  else .WriteThenNoop

/-- The writes one entry causes on a list of bindings: for each binding in order, one
write in the encoder of that binding to each destination of its syncer in order. -/
def expectedWrites (ent : Entry) : List ioCore → List Effect
  | [] => []
  | c :: cs =>
    (match c.out with
     | some out => out.map (fun d => Effect.write d c.enc ent)
     | none => []) ++ expectedWrites ent cs

/-- The encoder kind a configured name stands for: `console` is the console text
encoder, the constant `utils.JSON` the structured encoder, any other name none. -/
def kindOf (JSON : String) (e : String) : Option EncoderKind :=
  if e = "console" then some .console
  else if e = JSON then some .json
  else none

/-- The recognised encoder kinds of a configured encoder list, in configured order. -/
def recognisedKinds (JSON : String) (es : List String) : List EncoderKind :=
  es.filterMap (kindOf JSON)

/-- The writes the specification expects of one entry: for each encoder kind in order,
one write of the entry in that kind of encoder, built on the configuration `cfg`, to each
destination in order. -/
def specWrites (ent : Entry) (cfg : EncoderConfig) (dests : List String) :
    List EncoderKind → List Effect
  | [] => []
  | k :: ks =>
    dests.map (fun d => Effect.write d { kind := k, cfg := cfg } ent)
      ++ specWrites ent cfg dests ks

/-- The encoder kind of a write effect. -/
def Effect.writeKind : Effect → Option EncoderKind
  | .write _ enc _ => some enc.kind
  | _ => none

/-- The message text the specification describes, with the separator rule of the code:
the default formatting of each operand in order, a single space between two adjacent
operands when neither is a string. -/
def joinOperands : List Value → String
  | [] => ""
  | [a] => a.text
  | a :: b :: rest =>
    a.text ++ (if !a.isString && !b.isString then " " else "") ++ joinOperands (b :: rest)

/-- The message text as the plain concatenation of the default formatting of each
operand, in order, with no separator. -/
def concatOperands : List Value → String
  | [] => ""
  | a :: rest => a.text ++ concatOperands rest

/-- Of every two adjacent operands at least one is a string. -/
def adjacentString : List Value → Bool
  | a :: b :: rest => (a.isString || b.isString) && adjacentString (b :: rest)
  | _ => true

/-- A runtime in which every lookup succeeds and no write fails. -/
def Runtime.sample : Runtime :=
  { now := 7, uuid := "u", Caller := fun _ => some ("main.go", 10), Stack := "stk",
    writeFails := fun _ => false }

/-- A file system in which every destination opens. -/
def opensAll : String → Bool := fun _ => true

/-- A file system in which every destination opens but `/nonexistent/x.log`. -/
def opensButOne : String → Bool := fun p => !(p == "/nonexistent/x.log")

/-- A clock whose formatted reading is constant. -/
def stampSample : Nat → String := fun _ => "2006-01-02_15-04-05"

/-- The zero value of `CooLogConfig`. -/
def CooLogConfig.zero : CooLogConfig :=
  { Dev := false, Level := "", Encoder := [], Encode := [], Key := [], OutPuts := [] }

/-- A world in which the configuration file of every profile type is found and is empty.
On the empty buffer the JSON unmarshaler fails after allocating a zero configuration
behind a nil pointer, and the YAML unmarshaler leaves the pointer as it is. -/
def Boot.sample : Boot :=
  { JSON := "json", YAML := "yaml"
    AppFile := fun dir runMode _ logfile => some (dir ++ "/" ++ runMode ++ "/" ++ logfile)
    ReadFile := fun _ => some ""
    jsonUnmarshal := fun _ p =>
      match p with
      | none => some CooLogConfig.zero
      | some c => some c
    yamlUnmarshal := fun _ p => p }

/-- The entry `check` builds before asking the core. -/
def baseEntry (Coo : CooLogger) (rt : Runtime) (lvl : Level) (msg : String) : Entry :=
  { LoggerName := Coo.name ++ rt.uuid, Time := rt.now, Level := lvl, Message := msg,
    Caller := EntryCaller.zero, Stack := "" }

/-- The default configuration with the level `warn`. -/
def confWarn : CooLogConfig := { defaultLogConfig with Level := "warn" }

/-- The default configuration with both encoder kinds. -/
def confBoth : CooLogConfig := { defaultLogConfig with Encoder := ["console", "json"] }

/-- The default configuration with no encoder kind. -/
def confNone : CooLogConfig := { defaultLogConfig with Encoder := [] }

/-- The default configuration with a second destination that does not open. -/
def confUnopenable : CooLogConfig :=
  { defaultLogConfig with OutPuts := ["stderr", "/nonexistent/x.log"] }

/-- The logger `New` builds from a configuration in the sample world. -/
def cooOf (cooConf : CooLogConfig) : CooLogger :=
  New "json" stampSample opensAll EncoderConfig.zero cooConf "app"

/-! ## Lemmas on the tee core -/

theorem multiCheck_some (ent : Entry) (mc : List ioCore) (ce : CheckedEntry) :
    multiCheck ent mc (some ce) =
      some { ce with cores := ce.cores ++ mc.filter (fun c => c.Enabled ent.Level) } := by
  induction mc generalizing ce with
  | nil => simp [multiCheck]
  | cons c mc ih =>
    by_cases h : c.Enabled ent.Level = true
    · simp [multiCheck, ioCore.Check, h, CheckedEntry.AddCore, ih]
    · simp [multiCheck, ioCore.Check, h, ih]

theorem multiCheck_none (ent : Entry) (mc : List ioCore) :
    multiCheck ent mc none =
      if mc.filter (fun c => c.Enabled ent.Level) = [] then none
      else some { CheckedEntry.fresh ent with
                  cores := mc.filter (fun c => c.Enabled ent.Level) } := by
  induction mc with
  | nil => simp [multiCheck]
  | cons c mc ih =>
    by_cases h : c.Enabled ent.Level = true
    · simp [multiCheck, ioCore.Check, h, CheckedEntry.AddCore, multiCheck_some,
        CheckedEntry.fresh]
    · simp [multiCheck, ioCore.Check, h, ih]

theorem Core.Check_none (core : Core) (ent : Entry) :
    core.Check ent none =
      if core.cores.filter (fun c => c.Enabled ent.Level) = [] then none
      else some { CheckedEntry.fresh ent with
                  cores := core.cores.filter (fun c => c.Enabled ent.Level) } := by
  cases core with
  | nop => simp [Core.Check, Core.cores]
  | io c =>
    by_cases h : c.Enabled ent.Level = true
    · simp [Core.Check, Core.cores, ioCore.Check, h, CheckedEntry.AddCore,
        CheckedEntry.fresh]
    · simp [Core.Check, Core.cores, ioCore.Check, h]
  | multi mc => simp [Core.Check, Core.cores, multiCheck_none]

theorem Core.Enabled_eq_any (core : Core) (lvl : Level) :
    core.Enabled lvl = core.cores.any (fun c => c.Enabled lvl) := by
  cases core <;> simp [Core.Enabled, Core.cores]

theorem filter_enabled_eq_nil (cs : List ioCore) (lvl : Level) :
    cs.filter (fun c => c.Enabled lvl) = [] ↔ cs.any (fun c => c.Enabled lvl) = false := by
  induction cs with
  | nil => simp
  | cons c cs ih =>
    by_cases h : c.Enabled lvl = true
    · simp [h]
    · simp [h, ih]

theorem NewTee_cores (cs : List ioCore) : (NewTee cs).cores = cs := by
  match cs with
  | [] => rfl
  | [_] => rfl
  | _ :: _ :: _ => rfl

/-! ## Lemmas on `New` -/

theorem newLevel_bounds (s : String) : DebugLevel ≤ newLevel s ∧ newLevel s ≤ ErrorLevel := by
  unfold newLevel
  split_ifs <;> simp [DebugLevel, WarnLevel, ErrorLevel, InfoLevel]

theorem newCores_mem (JSON : String) (ec : EncoderConfig) (sink : Option (List String))
    (lvl : Level)
    (es : List String) (c : ioCore) (hc : c ∈ newCores JSON ec sink lvl es) :
    c.enab = lvl ∧ c.out = sink ∧ c.enc.cfg = ec := by
  induction es with
  | nil => simp [newCores] at hc
  | cons e es ih =>
    unfold newCores at hc
    split_ifs at hc
    · rcases List.mem_cons.mp hc with h | h
      · subst h; simp
      · exact ih h
    · rcases List.mem_cons.mp hc with h | h
      · subst h; simp
      · exact ih h
    · exact ih hc

theorem newCores_length (JSON : String) (ec : EncoderConfig) (sink : Option (List String))
    (lvl : Level) (es : List String) :
    (newCores JSON ec sink lvl es).length =
      (es.filter (fun e => decide (e = CONSOLE ∨ e = JSON))).length := by
  induction es with
  | nil => simp [newCores]
  | cons e es ih =>
    unfold newCores
    by_cases h1 : e = CONSOLE
    · simp [h1, ih]
    · by_cases h2 : e = JSON
      · subst h2; simp [h1, ih]
      · simp [h1, h2, ih]

theorem New_cores (JSON : String) (stamp : Nat → String) (opens : String → Bool)
    (ec : EncoderConfig) (cooConf : CooLogConfig) (app : String) :
    (New JSON stamp opens ec cooConf app).core.cores =
      newCores JSON (newEncoderConfig cooConf ec)
        (zapOpen opens (newOutputs app stamp 0 cooConf.OutPuts))
        (newLevel cooConf.Level) cooConf.Encoder := by
  simp [New, NewTee_cores]

/-! ## Lemmas on `check` -/

theorem escalate_eq (development : Bool) (ent : Entry) (ce : Option CheckedEntry) :
    escalate development ent ce =
      if specAction development ent.Level = .WriteThenNoop then ce
      else some (CheckedEntry.Should ce ent (specAction development ent.Level)) := by
  have hfp : FatalLevel ≠ PanicLevel := by decide
  have hdp : DPanicLevel ≠ PanicLevel := by decide
  have hdf : DPanicLevel ≠ FatalLevel := by decide
  unfold escalate specAction
  by_cases h1 : ent.Level = PanicLevel
  · simp [h1]
  · by_cases h2 : ent.Level = FatalLevel
    · simp [h2, hfp]
    · by_cases h3 : ent.Level = DPanicLevel
      · cases development <;> simp [h3, hdp, hdf]
      · simp [h1, h2, h3]

theorem check_of_disabled (Coo : CooLogger) (rt : Runtime) (lvl : Level) (msg : String)
    (h : Coo.core.Enabled lvl = false) :
    check Coo rt lvl msg =
      (if specAction Coo.development lvl = .WriteThenNoop then none
       else some { CheckedEntry.fresh (baseEntry Coo rt lvl msg) with
                   should := specAction Coo.development lvl }, []) := by
  have hf : Coo.core.cores.filter (fun c => c.Enabled lvl) = [] := by
    rw [filter_enabled_eq_nil, ← Core.Enabled_eq_any]; exact h
  unfold check
  simp only [Core.Check_none, hf, escalate_eq]
  by_cases hs : specAction Coo.development lvl = .WriteThenNoop
  · simp [hs]
  · simp [hs, CheckedEntry.Should, baseEntry]

theorem check_of_enabled (Coo : CooLogger) (rt : Runtime) (lvl : Level) (msg : String)
    (h : Coo.core.Enabled lvl = true) :
    ∃ ce effs, check Coo rt lvl msg = (some ce, effs) ∧
      ce.should = specAction Coo.development lvl ∧
      ce.cores = Coo.core.cores.filter (fun c => c.Enabled lvl) ∧
      ce.Entry.Message = msg ∧ ce.Entry.Level = lvl ∧
      (∀ e ∈ effs, e.isEscalation = false ∧ e.isWrite = false) := by
  have hf : Coo.core.cores.filter (fun c => c.Enabled lvl) ≠ [] := by
    rw [Ne, filter_enabled_eq_nil, ← Core.Enabled_eq_any, h]; simp
  unfold check
  simp only [Core.Check_none, hf, escalate_eq, if_false]
  by_cases hs : specAction Coo.development lvl = .WriteThenNoop
  · simp only [hs, if_true, Option.isSome_some, Bool.not_true, Bool.false_eq_true, if_false]
    split_ifs <;>
      exact ⟨_, _, rfl, by simp [CheckedEntry.fresh], by simp [CheckedEntry.fresh],
        by simp [CheckedEntry.fresh], by simp [CheckedEntry.fresh],
        by simp [Effect.isEscalation, Effect.isWrite]⟩
  · simp only [hs, if_false, Option.isSome_some, Bool.not_true, Bool.false_eq_true]
    split_ifs <;>
      exact ⟨_, _, rfl, by simp [CheckedEntry.fresh, CheckedEntry.Should],
        by simp [CheckedEntry.fresh, CheckedEntry.Should],
        by simp [CheckedEntry.fresh, CheckedEntry.Should],
        by simp [CheckedEntry.fresh, CheckedEntry.Should],
        by simp [Effect.isEscalation, Effect.isWrite]⟩

/-! ## Lemmas on `Write` -/

theorem map_write_filter (enc : Encoder) (ent : Entry) (l : List String) :
    (l.map (fun d => Effect.write d enc ent)).filter Effect.isWrite =
      l.map (fun d => Effect.write d enc ent) := by
  induction l with
  | nil => rfl
  | cons d l ih => simp [List.filter, Effect.isWrite, ih]

theorem map_sync_filter (l : List String) :
    (l.map Effect.sync).filter Effect.isWrite = [] := by
  induction l with
  | nil => rfl
  | cons d l ih => simp [List.filter, Effect.isWrite, ih]

theorem ioCore.Write_none (c : ioCore) (rt : Runtime) (ent : Entry) (h : c.out = none) :
    c.Write rt ent = (none, [Effect.nilDeref]) := by
  simp [ioCore.Write, h]

theorem ioCore.Write_some (c : ioCore) (rt : Runtime) (ent : Entry) (out : List String)
    (h : c.out = some out) :
    ∃ err t, c.Write rt ent = (some err, t) ∧
      t.filter Effect.isWrite = out.map (fun d => Effect.write d c.enc ent) ∧
      (∀ e ∈ t, e.isEscalation = false) ∧
      (∀ d ∈ out, Effect.write d c.enc ent ∈ t) := by
  have h1 : ∀ e ∈ out.map (fun d => Effect.write d c.enc ent),
      e.isEscalation = false := by
    intro e he
    obtain ⟨d, _, rfl⟩ := List.mem_map.mp he
    rfl
  have h2 : ∀ e ∈ out.map Effect.sync, e.isEscalation = false := by
    intro e he
    obtain ⟨d, _, rfl⟩ := List.mem_map.mp he
    rfl
  have h3 : ∀ d ∈ out, Effect.write d c.enc ent ∈
      out.map (fun d => Effect.write d c.enc ent) :=
    fun d hd => List.mem_map.mpr ⟨d, hd, rfl⟩
  simp only [ioCore.Write, h]
  split_ifs
  · exact ⟨_, _, rfl, map_write_filter _ _ _, h1, h3⟩
  · refine ⟨_, _, rfl, ?_, ?_, ?_⟩
    · rw [List.filter_append, map_write_filter, map_sync_filter, List.append_nil]
    · intro e he
      rcases List.mem_append.mp he with he | he
      · exact h1 e he
      · exact h2 e he
    · intro d hd
      exact List.mem_append.mpr (Or.inl (h3 d hd))
  · exact ⟨_, _, rfl, map_write_filter _ _ _, h1, h3⟩

theorem writeCores_cons_none (rt : Runtime) (ent : Entry) (c : ioCore) (cs : List ioCore)
    (h : c.out = none) : writeCores rt ent (c :: cs) = (none, [Effect.nilDeref]) := by
  simp [writeCores, ioCore.Write_none c rt ent h]

theorem writeCores_cons_some (rt : Runtime) (ent : Entry) (c : ioCore) (cs : List ioCore)
    (err : Bool) (t : List Effect) (h : c.Write rt ent = (some err, t)) :
    writeCores rt ent (c :: cs) =
      ((writeCores rt ent cs).1.map (fun errs => err || errs),
        t ++ (writeCores rt ent cs).2) := by
  rcases hr : writeCores rt ent cs with ⟨_ | errs, ts⟩ <;> simp [writeCores, h, hr]

theorem writeCores_spec (rt : Runtime) (ent : Entry) (cs : List ioCore) :
    (∀ e ∈ (writeCores rt ent cs).2, e.isEscalation = false) ∧
    ((writeCores rt ent cs).1 = none →
      (∃ pre, (writeCores rt ent cs).2 = pre ++ [Effect.nilDeref]) ∧
      ∃ c ∈ cs, c.out = none) ∧
    ((writeCores rt ent cs).1 ≠ none →
      (writeCores rt ent cs).2.filter Effect.isWrite = expectedWrites ent cs ∧
      ∀ c ∈ cs, ∃ out, c.out = some out ∧
        ∀ d ∈ out, Effect.write d c.enc ent ∈ (writeCores rt ent cs).2) ∧
    ((∀ c ∈ cs, c.out ≠ none) → (writeCores rt ent cs).1 ≠ none) := by
  induction cs with
  | nil => simp [writeCores, expectedWrites]
  | cons c cs ih =>
    obtain ⟨ih1, ih2, ih3, ih4⟩ := ih
    cases hc : c.out with
    | none =>
      rw [writeCores_cons_none rt ent c cs hc]
      refine ⟨?_, ?_, ?_, ?_⟩
      · intro e he
        simp only [List.mem_singleton] at he
        subst he; rfl
      · intro _
        exact ⟨⟨[], rfl⟩, c, List.mem_cons_self _ _, hc⟩
      · intro h; exact absurd rfl h
      · intro h; exact absurd hc (h c (List.mem_cons_self _ _))
    | some out =>
      obtain ⟨err, t, hw, hfil, hesc, hmem⟩ := ioCore.Write_some c rt ent out hc
      rw [writeCores_cons_some rt ent c cs err t hw]
      refine ⟨?_, ?_, ?_, ?_⟩
      · intro e he
        rcases List.mem_append.mp he with he | he
        · exact hesc e he
        · exact ih1 e he
      · intro hnone
        have hn : (writeCores rt ent cs).1 = none := by
          simpa using hnone
        obtain ⟨⟨pre, hpre⟩, c2, hc2, hout⟩ := ih2 hn
        refine ⟨⟨t ++ pre, ?_⟩, c2, List.mem_cons_of_mem _ hc2, hout⟩
        simp only [hpre, List.append_assoc]
      · intro hsome
        have hn : (writeCores rt ent cs).1 ≠ none := by
          intro hcon
          apply hsome
          simp [hcon]
        obtain ⟨hf, hm⟩ := ih3 hn
        refine ⟨?_, ?_⟩
        · simp only [List.filter_append, hfil, hf, expectedWrites, hc]
        · intro c2 hc2
          rcases List.mem_cons.mp hc2 with h | h
          · subst h
            exact ⟨out, hc, fun d hd => List.mem_append.mpr (Or.inl (hmem d hd))⟩
          · obtain ⟨out2, ho2, hd2⟩ := hm c2 h
            exact ⟨out2, ho2, fun d hd => List.mem_append.mpr (Or.inr (hd2 d hd))⟩
      · intro hall
        have hn := ih4 (fun c2 hc2 => hall c2 (List.mem_cons_of_mem _ hc2))
        intro hcon
        apply hn
        simpa using hcon

theorem actionEffects_escalation (should : CheckWriteAction) (msg : String) :
    (∀ e ∈ actionEffects should msg, e.isEscalation = true ∧ e.isWrite = false) ∧
      (actionEffects should msg).length = (if should = .WriteThenNoop then 0 else 1) := by
  cases should <;> simp [actionEffects, Effect.isEscalation, Effect.isWrite]

theorem reportEffects_plain (errorOutput : Option String) (err : Bool) :
    ∀ e ∈ reportEffects errorOutput err, e.isEscalation = false ∧ e.isWrite = false := by
  intro e he
  cases errorOutput with
  | none => simp [reportEffects] at he
  | some eo =>
    cases err with
    | false => simp [reportEffects] at he
    | true =>
      simp only [reportEffects, if_true, List.mem_cons, List.mem_singleton,
        List.not_mem_nil, or_false] at he
      rcases he with rfl | rfl <;> exact ⟨rfl, rfl⟩

theorem filter_eq_nil_of_forall_false (p : Effect → Bool) (l : List Effect)
    (h : ∀ e ∈ l, p e = false) : l.filter p = [] := by
  rw [List.filter_eq_nil_iff]
  intro e he
  simp [h e he]

/-- The shape of `Write`: either the loop ran through, and the effects are the writes,
the report and the recorded action; or a nil sink ended the call in the loop. -/
theorem CheckedEntry.Write_spec (ce : CheckedEntry) (rt : Runtime) :
    (∃ body, ce.Write rt = body ++ actionEffects ce.should ce.Entry.Message ∧
      (∀ e ∈ body, e.isEscalation = false) ∧
      body.filter Effect.isWrite = expectedWrites ce.Entry ce.cores ∧
      (∀ c ∈ ce.cores, ∃ out, c.out = some out ∧
        ∀ d ∈ out, Effect.write d c.enc ce.Entry ∈ body)) ∨
    (∃ body, ce.Write rt = body ++ [Effect.nilDeref] ∧
      (∀ e ∈ body ++ [Effect.nilDeref], e.isEscalation = false) ∧
      ∃ c ∈ ce.cores, c.out = none) := by
  obtain ⟨h1, h2, h3, -⟩ := writeCores_spec rt ce.Entry ce.cores
  rcases hr : writeCores rt ce.Entry ce.cores with ⟨_ | err, t⟩
  · right
    rw [hr] at h1 h2
    obtain ⟨⟨pre, hpre⟩, hc⟩ := h2 rfl
    refine ⟨pre, ?_, ?_, hc⟩
    · simp only [CheckedEntry.Write, hr]; exact hpre
    · intro e he
      apply h1
      simp only at hpre
      rw [hpre]; exact he
  · left
    rw [hr] at h1 h3
    obtain ⟨hf, hm⟩ := h3 (by simp)
    refine ⟨t ++ reportEffects ce.ErrorOutput err, ?_, ?_, ?_, ?_⟩
    · simp only [CheckedEntry.Write, hr]
    · intro e he
      rcases List.mem_append.mp he with he | he
      · exact h1 e he
      · exact (reportEffects_plain _ _ e he).1
    · rw [List.filter_append, hf,
        filter_eq_nil_of_forall_false _ _ (fun e he => (reportEffects_plain _ _ e he).2),
        List.append_nil]
    · intro c hc
      obtain ⟨out, ho, hd⟩ := hm c hc
      exact ⟨out, ho, fun d hd2 => List.mem_append.mpr (Or.inl (hd d hd2))⟩

theorem CheckedEntry.Write_of_open (ce : CheckedEntry) (rt : Runtime)
    (h : ∀ c ∈ ce.cores, c.out ≠ none) :
    ∃ body, ce.Write rt = body ++ actionEffects ce.should ce.Entry.Message ∧
      (∀ e ∈ body, e.isEscalation = false) ∧
      body.filter Effect.isWrite = expectedWrites ce.Entry ce.cores ∧
      (∀ c ∈ ce.cores, ∃ out, c.out = some out ∧
        ∀ d ∈ out, Effect.write d c.enc ce.Entry ∈ body) := by
  rcases CheckedEntry.Write_spec ce rt with h1 | ⟨_, _, _, c, hc, hout⟩
  · exact h1
  · exact absurd hout (h c hc)

/-! ## Lemmas on the gates of a logger built by `New` -/

theorem New_enabled_false_of_lt (JSON : String) (stamp : Nat → String)
    (opens : String → Bool) (ec : EncoderConfig) (cooConf : CooLogConfig) (app : String)
    (lvl : Level) (h : lvl < newLevel cooConf.Level) :
    (New JSON stamp opens ec cooConf app).core.Enabled lvl = false := by
  rw [Core.Enabled_eq_any, New_cores, List.any_eq_false]
  intro c hc
  have hc := (newCores_mem _ _ _ _ _ c hc).1
  simp only [ioCore.Enabled, LevelEnabled, hc, decide_eq_true_eq]
  exact not_le.mpr h

theorem New_filter_enabled_of_le (JSON : String) (stamp : Nat → String)
    (opens : String → Bool) (ec : EncoderConfig) (cooConf : CooLogConfig) (app : String)
    (lvl : Level) (h : newLevel cooConf.Level ≤ lvl) :
    (New JSON stamp opens ec cooConf app).core.cores.filter (fun c => c.Enabled lvl) =
      (New JSON stamp opens ec cooConf app).core.cores := by
  rw [List.filter_eq_self, New_cores]
  intro c hc
  have hc := (newCores_mem _ _ _ _ _ c hc).1
  simp only [ioCore.Enabled, LevelEnabled, hc, decide_eq_true_eq]
  exact h

theorem newCores_ne_nil (JSON : String) (ec : EncoderConfig) (sink : Option (List String))
    (lvl : Level) (es : List String) (h : ∃ e ∈ es, e = CONSOLE ∨ e = JSON) :
    newCores JSON ec sink lvl es ≠ [] := by
  intro hnil
  have hlen := newCores_length JSON ec sink lvl es
  rw [hnil] at hlen
  obtain ⟨e, he, hk⟩ := h
  have hmem : e ∈ es.filter (fun e => decide (e = CONSOLE ∨ e = JSON)) :=
    List.mem_filter.mpr ⟨he, by simpa using hk⟩
  have : (es.filter (fun e => decide (e = CONSOLE ∨ e = JSON))) = [] :=
    List.length_eq_zero.mp hlen.symm
  rw [this] at hmem
  simp at hmem

theorem specAction_noop_of_le_error (development : Bool) (lvl : Level)
    (h : lvl ≤ ErrorLevel) : specAction development lvl = .WriteThenNoop := by
  unfold specAction
  have h1 : ¬ lvl = PanicLevel := by
    intro he; rw [he] at h; exact absurd h (by decide)
  have h2 : ¬ lvl = FatalLevel := by
    intro he; rw [he] at h; exact absurd h (by decide)
  have h3 : ¬ lvl = DPanicLevel := by
    intro he; rw [he] at h; exact absurd h (by decide)
  simp [h1, h2, h3]

/-! ## Counting the writes of one call -/

theorem zapOpen_of_all (opens : String → Bool) (paths : List String)
    (h : ∀ p ∈ paths, opens p = true) : zapOpen opens paths = some paths := by
  have : paths.all opens = true := List.all_eq_true.mpr h
  simp [zapOpen, this]

theorem newCores_eq_map (JSON : String) (ec : EncoderConfig) (sink : Option (List String))
    (lvl : Level) (es : List String) :
    newCores JSON ec sink lvl es =
      (recognisedKinds JSON es).map
        (fun k => { enab := lvl, enc := { kind := k, cfg := ec }, out := sink }) := by
  induction es with
  | nil => rfl
  | cons e es ih =>
    unfold newCores
    by_cases h1 : e = "console"
    · simp [CONSOLE, h1, ih, recognisedKinds, kindOf, List.filterMap_cons]
    · by_cases h2 : e = JSON
      · subst h2
        simp [CONSOLE, h1, ih, recognisedKinds, kindOf, List.filterMap_cons]
      · simp [CONSOLE, h1, h2, ih, recognisedKinds, kindOf, List.filterMap_cons]

theorem expectedWrites_map (ent : Entry) (cfg : EncoderConfig) (lvl : Level)
    (dests : List String) (ks : List EncoderKind) :
    expectedWrites ent
        (ks.map (fun k => { enab := lvl, enc := { kind := k, cfg := cfg },
                            out := some dests })) =
      specWrites ent cfg dests ks := by
  induction ks with
  | nil => rfl
  | cons k ks ih => simp [expectedWrites, specWrites, ih]

theorem filter_isWriteTo (d : String) (l : List Effect) :
    l.filter (Effect.isWriteTo d) = (l.filter Effect.isWrite).filter (Effect.isWriteTo d) := by
  rw [List.filter_filter]
  apply List.filter_congr
  intro e _
  cases e <;> simp [Effect.isWrite, Effect.isWriteTo]

theorem map_write_count (d : String) (enc : Encoder) (ent : Entry) (sink : List String) :
    ((sink.map (fun x => Effect.write x enc ent)).filter (Effect.isWriteTo d)).length =
      sink.count d := by
  induction sink with
  | nil => rfl
  | cons a sink ih =>
    by_cases h : a = d
    · subst h; simp [List.filter, Effect.isWriteTo, ih]
    · have h2 : (a == d) = false := by simpa using h
      simp [List.filter, Effect.isWriteTo, ih, h, List.count_cons, h2]

theorem specWrites_count (ent : Entry) (cfg : EncoderConfig) (d : String)
    (dests : List String) (ks : List EncoderKind) :
    ((specWrites ent cfg dests ks).filter (Effect.isWriteTo d)).length =
      ks.length * dests.count d := by
  induction ks with
  | nil => simp [specWrites]
  | cons k ks ih =>
    simp only [specWrites, List.filter_append, List.length_append, map_write_count, ih,
      List.length_cons]
    ring

theorem logCall_of_enabled (Coo : CooLogger) (rt : Runtime) (lvl : Level) (msg : String)
    (h : Coo.core.Enabled lvl = true) :
    ∃ (ce : CheckedEntry) (effs : List Effect), logCall Coo rt lvl msg = effs ++ ce.Write rt ∧
      ce.should = specAction Coo.development lvl ∧
      ce.cores = Coo.core.cores.filter (fun c => c.Enabled lvl) ∧
      ce.Entry.Message = msg ∧ ce.Entry.Level = lvl ∧
      (∀ e ∈ effs, e.isEscalation = false ∧ e.isWrite = false) := by
  obtain ⟨ce, effs, hc, hs, hcores, hm, hl, he⟩ := check_of_enabled Coo rt lvl msg h
  refine ⟨ce, effs, ?_, hs, hcores, hm, hl, he⟩
  simp [logCall, hc]

theorem logCall_of_disabled (Coo : CooLogger) (rt : Runtime) (lvl : Level) (msg : String)
    (h : Coo.core.Enabled lvl = false) :
    logCall Coo rt lvl msg = actionEffects (specAction Coo.development lvl) msg := by
  have hc := check_of_disabled Coo rt lvl msg h
  by_cases hs : specAction Coo.development lvl = .WriteThenNoop
  · simp [logCall, hc, hs, actionEffects]
  · simp [logCall, hc, hs, CheckedEntry.Write, writeCores, reportEffects,
      CheckedEntry.fresh, baseEntry]

theorem escalation_count (pre : List Effect) (should : CheckWriteAction) (msg : String)
    (hpre : ∀ e ∈ pre, e.isEscalation = false) :
    ((pre ++ actionEffects should msg).filter Effect.isEscalation).length =
      (if should = .WriteThenNoop then 0 else 1) := by
  have hact := actionEffects_escalation should msg
  rw [List.filter_append, filter_eq_nil_of_forall_false _ pre hpre, List.nil_append,
    List.filter_eq_self.mpr (fun e he => (hact.1 e he).1), hact.2]

theorem zapOpen_of_not_all (opens : String → Bool) (paths : List String)
    (h : ∃ p ∈ paths, opens p = false) : zapOpen opens paths = none := by
  obtain ⟨p, hp, hf⟩ := h
  have : ¬ (paths.all opens = true) := by
    intro hall
    have := List.all_eq_true.mp hall p hp
    rw [hf] at this
    exact absurd this (by decide)
  simp [zapOpen, this]

/-- When a destination does not open, the sink of every binding is nil, and a log call
at or above the threshold on a logger with a recognised encoder kind dies in its first
write: nothing is written and no recorded action runs. -/
theorem unopened_sink_aborts_call (JSON : String) (stamp : Nat → String)
    (opens : String → Bool) (ec : EncoderConfig) (cooConf : CooLogConfig) (app : String)
    (rt : Runtime) (lvl : Level) (msg : String)
    (hbad : ∃ p ∈ newOutputs app stamp 0 cooConf.OutPuts, opens p = false)
    (hrec : ∃ e ∈ cooConf.Encoder, e = CONSOLE ∨ e = JSON)
    (h : newLevel cooConf.Level ≤ lvl) :
    ∃ effs, logCall (New JSON stamp opens ec cooConf app) rt lvl msg =
        effs ++ [Effect.nilDeref] ∧
      ∀ e ∈ effs, e.isEscalation = false ∧ e.isWrite = false := by
  have hfil := New_filter_enabled_of_le JSON stamp opens ec cooConf app lvl h
  have hne : (New JSON stamp opens ec cooConf app).core.cores ≠ [] := by
    rw [New_cores]; exact newCores_ne_nil _ _ _ _ _ hrec
  have hnil : ∀ c ∈ (New JSON stamp opens ec cooConf app).core.cores, c.out = none := by
    intro c hc
    rw [New_cores, zapOpen_of_not_all opens _ hbad] at hc
    exact (newCores_mem _ _ _ _ _ c hc).2.1
  have hen : (New JSON stamp opens ec cooConf app).core.Enabled lvl = true := by
    rw [Core.Enabled_eq_any]
    by_contra hcon
    rw [Bool.not_eq_true, ← filter_enabled_eq_nil, hfil] at hcon
    exact hne hcon
  obtain ⟨ce, effs, hlog, -, hcores, -, -, heffs⟩ := logCall_of_enabled _ rt lvl msg hen
  rw [hfil] at hcores
  refine ⟨effs, ?_, heffs⟩
  rw [hlog]
  congr 1
  cases hcs : ce.cores with
  | nil => rw [hcs] at hcores; exact absurd hcores.symm hne
  | cons c cs =>
    have hc : c.out = none := hnil c (by rw [← hcores, hcs]; exact List.mem_cons_self _ _)
    simp [CheckedEntry.Write, hcs, writeCores_cons_none rt ce.Entry c cs hc]

/-! ## Lemmas on `Sprint` -/

theorem doPrint_succ (b : Value) (rest : List Value) (argNum : Nat) (prevString : Bool)
    (buf : String) :
    doPrint (b :: rest) (argNum + 1) prevString buf =
      buf ++ (if !prevString && !b.isString then " " else "") ++ joinOperands (b :: rest) := by
  induction rest generalizing b argNum prevString buf with
  | nil =>
    cases hp : prevString <;> cases hb : b.isString <;>
      simp [doPrint, joinOperands, printArg, hb, String.append_assoc]
  | cons c rest ih =>
    unfold doPrint
    rw [ih]
    cases hp : prevString <;> cases hb : b.isString <;> cases hc : c.isString <;>
      simp [joinOperands, printArg, hb, hc, String.append_assoc]

theorem Sprint_eq_joinOperands (a : List Value) : Sprint a = joinOperands a := by
  match a with
  | [] => rfl
  | [v] => simp [Sprint, doPrint, joinOperands, printArg]
  | v :: w :: rest =>
    unfold Sprint doPrint
    rw [doPrint_succ]
    cases hv : v.isString <;> cases hw : w.isString <;>
      simp [joinOperands, printArg, hv, hw, String.append_assoc]

theorem joinOperands_eq_concat (a : List Value) (h : adjacentString a = true) :
    joinOperands a = concatOperands a := by
  match a, h with
  | [], _ => rfl
  | [v], _ => simp [joinOperands, concatOperands]
  | v :: w :: rest, h =>
    simp only [adjacentString, Bool.and_eq_true, Bool.or_eq_true] at h
    have ih := joinOperands_eq_concat (w :: rest) h.2
    have hsep : (if !v.isString && !w.isString then " " else "") = "" := by
      rcases h.1 with h1 | h1 <;> simp [h1]
    simp only [joinOperands, hsep, String.append_empty, String.append_assoc]
    rw [concatOperands, ← ih]

/-! ## Lemmas on the resolution of the format choices -/

theorem lvlEncoder_EncodeLevel (clog : CooLogConfig) (e : EncoderConfig) :
    (lvlEncoder clog e).EncodeLevel =
      some (if clog.Encode.get "level" = "capital" then .CapitalLevelEncoder
        else if clog.Encode.get "level" = "capitalColor" then .CapitalColorLevelEncoder
        else if clog.Encode.get "level" = "color" then .LowercaseColorLevelEncoder
        else .LowercaseLevelEncoder) := by
  simp only [lvlEncoder]
  split_ifs <;> rfl

theorem timeEncoder_EncodeTime (clog : CooLogConfig) (e : EncoderConfig) :
    (timeEncoder clog e).EncodeTime =
      some (if clog.Encode.get "time" = "local" then .logEncodeTime
        else if clog.Encode.get "time" = "iso8601" ∨ clog.Encode.get "time" = "ISO8601"
          then .ISO8601TimeEncoder
        else if clog.Encode.get "time" = "millis" then .EpochMillisTimeEncoder
        else if clog.Encode.get "time" = "nanos" then .EpochNanosTimeEncoder
        else .EpochTimeEncoder) := by
  simp only [timeEncoder]
  split_ifs <;> rfl

theorem durEncoder_EncodeDuration (clog : CooLogConfig) (e : EncoderConfig) :
    (durEncoder clog e).EncodeDuration =
      some (if clog.Encode.get "duration" = "string" then .StringDurationEncoder
        else if clog.Encode.get "duration" = "nanos" then .NanosDurationEncoder
        else .SecondsDurationEncoder) := by
  simp only [durEncoder]
  split_ifs <;> rfl

theorem callerEncoder_EncodeCaller (clog : CooLogConfig) (e : EncoderConfig) :
    (callerEncoder clog e).EncodeCaller =
      some (if clog.Encode.get "caller" = "full" then .FullCallerEncoder
        else .ShortCallerEncoder) := by
  simp only [callerEncoder]
  split_ifs <;> rfl

theorem callerEncoder_others (clog : CooLogConfig) (e : EncoderConfig) :
    (callerEncoder clog e).EncodeLevel = e.EncodeLevel ∧
    (callerEncoder clog e).EncodeTime = e.EncodeTime ∧
    (callerEncoder clog e).EncodeDuration = e.EncodeDuration := by
  simp only [callerEncoder]
  split_ifs <;> exact ⟨rfl, rfl, rfl⟩

theorem durEncoder_others (clog : CooLogConfig) (e : EncoderConfig) :
    (durEncoder clog e).EncodeLevel = e.EncodeLevel ∧
    (durEncoder clog e).EncodeTime = e.EncodeTime := by
  simp only [durEncoder]
  split_ifs <;> exact ⟨rfl, rfl⟩

theorem lvlEncoder_others (clog : CooLogConfig) (e : EncoderConfig) :
    (lvlEncoder clog e).EncodeTime = e.EncodeTime := by
  simp only [lvlEncoder]
  split_ifs <;> rfl

theorem newEncoderConfig_fields (cooConf : CooLogConfig) (ec : EncoderConfig) :
    (newEncoderConfig cooConf ec).EncodeLevel =
      some (if cooConf.Encode.get "level" = "capital" then .CapitalLevelEncoder
        else if cooConf.Encode.get "level" = "capitalColor" then .CapitalColorLevelEncoder
        else if cooConf.Encode.get "level" = "color" then .LowercaseColorLevelEncoder
        else .LowercaseLevelEncoder) ∧
    (newEncoderConfig cooConf ec).EncodeTime =
      some (if cooConf.Encode.get "time" = "local" then .logEncodeTime
        else if cooConf.Encode.get "time" = "iso8601" ∨ cooConf.Encode.get "time" = "ISO8601"
          then .ISO8601TimeEncoder
        else if cooConf.Encode.get "time" = "millis" then .EpochMillisTimeEncoder
        else if cooConf.Encode.get "time" = "nanos" then .EpochNanosTimeEncoder
        else .EpochTimeEncoder) ∧
    (newEncoderConfig cooConf ec).EncodeDuration =
      some (if cooConf.Encode.get "duration" = "string" then .StringDurationEncoder
        else if cooConf.Encode.get "duration" = "nanos" then .NanosDurationEncoder
        else .SecondsDurationEncoder) ∧
    (newEncoderConfig cooConf ec).EncodeCaller =
      some (if cooConf.Encode.get "caller" = "full" then .FullCallerEncoder
        else .ShortCallerEncoder) := by
  simp only [newEncoderConfig]
  refine ⟨?_, ?_, ?_, ?_⟩
  · rw [(callerEncoder_others _ _).1, (durEncoder_others _ _).1, lvlEncoder_EncodeLevel]
  · rw [(callerEncoder_others _ _).2.1, (durEncoder_others _ _).2, lvlEncoder_others,
      timeEncoder_EncodeTime]
  · rw [(callerEncoder_others _ _).2.2, durEncoder_EncodeDuration]
  · rw [callerEncoder_EncodeCaller]

/-! ## Lemmas on `buildLogConfig` -/

theorem buildLogConfig_not_found (w : Boot) (cooConf : Option CooLogConfig)
    (runMode profileType : String)
    (h : w.AppFile "config" runMode profileType ("log." ++ profileType) = none) :
    buildLogConfig w cooConf runMode profileType = some defaultLogConfig := by
  simp [buildLogConfig, h]

theorem buildLogConfig_unsupported (w : Boot) (cooConf : Option CooLogConfig)
    (runMode profileType conf : String)
    (h : w.AppFile "config" runMode profileType ("log." ++ profileType) = some conf)
    (hj : profileType ≠ w.JSON) (hy : profileType ≠ w.YAML) :
    buildLogConfig w cooConf runMode profileType = cooConf := by
  simp [buildLogConfig, h, hj, hy]

/-! ## The properties -/

/-- C1: for every level string and every severity strictly below the threshold `New`
derives from it, `check` returns nil with no effect, so the log call has no effect at
all (no write, no caller lookup, no stack capture); such a severity is below `Error`,
so this covers `Debug`, `Info` and `Warn`. -/
theorem below_threshold_is_noop (JSON : String) (stamp : Nat → String)
    (opens : String → Bool) (ec : EncoderConfig) (cooConf : CooLogConfig) (app : String)
    (rt : Runtime) (lvl : Level) (msg : String) (details : List Value)
    (h : lvl < newLevel cooConf.Level) :
    check (New JSON stamp opens ec cooConf app) rt lvl msg = (none, []) ∧
    logCall (New JSON stamp opens ec cooConf app) rt lvl msg = [] ∧
    lvl < ErrorLevel ∧
    (lvl = DebugLevel → Debug (New JSON stamp opens ec cooConf app) rt details = []) ∧
    (lvl = InfoLevel → Info (New JSON stamp opens ec cooConf app) rt details = []) ∧
    (lvl = WarnLevel → Warn (New JSON stamp opens ec cooConf app) rt details = []) := by
  have hb := (newLevel_bounds cooConf.Level).2
  have hlt : lvl < ErrorLevel := lt_of_lt_of_le h hb
  have hdis := New_enabled_false_of_lt JSON stamp opens ec cooConf app lvl h
  have hchk : ∀ m, check (New JSON stamp opens ec cooConf app) rt lvl m = (none, []) := by
    intro m
    rw [check_of_disabled _ _ _ _ hdis, specAction_noop_of_le_error _ _ (le_of_lt hlt)]
    simp
  have hlog : ∀ m, logCall (New JSON stamp opens ec cooConf app) rt lvl m = [] := by
    intro m
    simp [logCall, hchk m]
  refine ⟨hchk msg, hlog msg, hlt, ?_, ?_, ?_⟩
  · intro hl; subst hl; exact hlog _
  · intro hl; subst hl; exact hlog _
  · intro hl; subst hl; exact hlog _

/-- Witness for C1: with level `warn`, `Info("x")` has no effect and `Warn("y")` writes
exactly one entry. -/
theorem below_threshold_is_noop_witness :
    InfoLevel < newLevel confWarn.Level ∧
    Info (cooOf confWarn) Runtime.sample [.str "x"] = [] ∧
    ((Warn (cooOf confWarn) Runtime.sample [.str "y"]).filter Effect.isWrite).length = 1 :=
  ⟨by decide,
   (below_threshold_is_noop "json" stampSample opensAll EncoderConfig.zero confWarn "app"
      Runtime.sample InfoLevel "x" [.str "x"] (by decide)).2.2.2.2.1 rfl,
   by decide⟩

/-- C2: on every logger that enables the severity, `check` returns an entry whose
recorded action is a function of the severity and the development flag alone: Panic
records abort, Fatal records terminate, DevPanic records abort exactly in development
mode, and Debug, Info, Warn, Error and DevPanic outside development record none. -/
theorem check_records_action_by_severity (Coo : CooLogger) (rt : Runtime) (lvl : Level)
    (msg : String) (h : Coo.core.Enabled lvl = true) :
    ∃ ce, (check Coo rt lvl msg).1 = some ce ∧
      ce.should = specAction Coo.development lvl ∧
      (lvl = PanicLevel → ce.should = .WriteThenPanic) ∧
      (lvl = FatalLevel → ce.should = .WriteThenFatal) ∧
      (lvl = DPanicLevel → (ce.should = .WriteThenPanic ↔ Coo.development = true)) ∧
      (lvl = DPanicLevel → Coo.development = false → ce.should = .WriteThenNoop) ∧
      (lvl = DebugLevel ∨ lvl = InfoLevel ∨ lvl = WarnLevel ∨ lvl = ErrorLevel →
        ce.should = .WriteThenNoop) := by
  obtain ⟨ce, effs, hc, hs, -, -, -, -⟩ := check_of_enabled Coo rt lvl msg h
  refine ⟨ce, by rw [hc], hs, ?_, ?_, ?_, ?_, ?_⟩
  · intro hl; rw [hs, hl]; rfl
  · intro hl; rw [hs, hl]; rfl
  · intro hl; rw [hs, hl]
    cases Coo.development <;> decide
  · intro hl hd; rw [hs, hl, hd]; rfl
  · intro hl; rw [hs]
    rcases hl with hl | hl | hl | hl <;> rw [hl] <;> cases Coo.development <;> rfl

/-- Witness for C2: `DPanic` on the default logger (development mode) records abort. -/
theorem check_records_action_by_severity_witness :
    (cooOf defaultLogConfig).core.Enabled DPanicLevel = true ∧
    ∃ ce, (check (cooOf defaultLogConfig) Runtime.sample DPanicLevel "x").1 = some ce ∧
      ce.should = .WriteThenPanic :=
  ⟨by decide,
   (check_records_action_by_severity (cooOf defaultLogConfig) Runtime.sample DPanicLevel
      "x" (by decide)).elim
    (fun ce hce => ⟨ce, hce.1, (hce.2.2.2.2.1 rfl).mpr (by decide)⟩)⟩

/-- C3, as stated, fails: on a logger with no binding, `check` at `Panic` returns a
non-nil entry that records the abort, and `Panic("x")` aborts. -/
theorem disabled_panic_still_escalates :
    (cooOf confNone).core.Enabled PanicLevel = false ∧
    check (cooOf confNone) Runtime.sample PanicLevel "x" ≠ (none, []) ∧
    Panic (cooOf confNone) Runtime.sample [.str "x"] = [Effect.panic "x"] := by
  decide

/-- C3, amended: when no binding enables the severity, a severity with no escalation
action (Debug, Info, Warn, Error, DevPanic outside development) makes `check` return
nil and the log call has no effect; a severity with an escalation action (Panic, Fatal,
DevPanic in development) makes `check` return an entry with no binding that records the
action, without any effect, and the only effect of the log call is that action. -/
theorem check_disabled (Coo : CooLogger) (rt : Runtime) (lvl : Level) (msg : String)
    (h : Coo.core.Enabled lvl = false) :
    (specAction Coo.development lvl = .WriteThenNoop →
      check Coo rt lvl msg = (none, []) ∧ logCall Coo rt lvl msg = []) ∧
    (specAction Coo.development lvl ≠ .WriteThenNoop →
      check Coo rt lvl msg =
        (some { CheckedEntry.fresh (baseEntry Coo rt lvl msg) with
                should := specAction Coo.development lvl }, []) ∧
      logCall Coo rt lvl msg = actionEffects (specAction Coo.development lvl) msg) := by
  have hc := check_of_disabled Coo rt lvl msg h
  constructor
  · intro hs
    rw [hs] at hc
    simp only [if_true] at hc
    exact ⟨hc, by simp [logCall, hc]⟩
  · intro hs
    simp only [hs, if_false] at hc
    exact ⟨hc, logCall_of_disabled Coo rt lvl msg h⟩

/-- Witness for C3 amended: `Fatal` on a logger with no binding only terminates. -/
theorem check_disabled_witness :
    (cooOf confNone).core.Enabled FatalLevel = false ∧
    logCall (cooOf confNone) Runtime.sample FatalLevel "dead" = [Effect.exit] :=
  ⟨by decide,
   ((check_disabled (cooOf confNone) Runtime.sample FatalLevel "dead" (by decide)).2
      (by decide)).2⟩

/-- C6: the threshold `New` builds is Debug for `debug`, Info for `info`, Warn for
`warn`, Error for `error` and Info for every other string (the empty string and
`DEBUG` among them); the mapping is a total function and is the gate of every binding
of the logger. -/
theorem newLevel_mapping :
    newLevel "debug" = DebugLevel ∧ newLevel "info" = InfoLevel ∧
    newLevel "warn" = WarnLevel ∧ newLevel "error" = ErrorLevel ∧
    (∀ s : String, s ≠ "debug" → s ≠ "info" → s ≠ "warn" → s ≠ "error" →
      newLevel s = InfoLevel) ∧
    newLevel "" = InfoLevel ∧ newLevel "DEBUG" = InfoLevel ∧
    (∀ (JSON : String) (stamp : Nat → String) (opens : String → Bool) (ec : EncoderConfig)
       (cooConf : CooLogConfig) (app : String),
      ∀ c ∈ (New JSON stamp opens ec cooConf app).core.cores,
        c.enab = newLevel cooConf.Level) := by
  refine ⟨by decide, by decide, by decide, by decide, ?_, by decide, by decide, ?_⟩
  · intro s h1 _ h3 h4
    simp [newLevel, DEBUG, WARN, ERROR, h1, h3, h4]
  · intro JSON stamp opens ec cooConf app c hc
    rw [New_cores] at hc
    exact (newCores_mem _ _ _ _ _ c hc).1

/-- Witness for C6: the string `verbose` is none of the four names and maps to Info. -/
theorem newLevel_mapping_witness : newLevel "verbose" = InfoLevel :=
  newLevel_mapping.2.2.2.2.1 "verbose" (by decide) (by decide) (by decide) (by decide)

/-- C10: whatever the level string, on a logger built by `New` with at least one
recognised encoder kind the severities DevPanic, Panic and Fatal are enabled (the
threshold is at most `Error`, which is below all three), and `check` returns a non-nil
entry bound to every binding of the logger. -/
theorem escalating_levels_always_enabled (JSON : String) (stamp : Nat → String)
    (opens : String → Bool) (ec : EncoderConfig) (cooConf : CooLogConfig) (app : String)
    (rt : Runtime) (lvl : Level) (msg : String)
    (hrec : ∃ e ∈ cooConf.Encoder, e = CONSOLE ∨ e = JSON)
    (hl : lvl = DPanicLevel ∨ lvl = PanicLevel ∨ lvl = FatalLevel) :
    newLevel cooConf.Level ≤ ErrorLevel ∧ ErrorLevel < lvl ∧
    (New JSON stamp opens ec cooConf app).core.Enabled lvl = true ∧
    ∃ ce, (check (New JSON stamp opens ec cooConf app) rt lvl msg).1 = some ce ∧
      ce.cores = (New JSON stamp opens ec cooConf app).core.cores ∧ ce.cores ≠ [] := by
  have hb := (newLevel_bounds cooConf.Level).2
  have hgt : ErrorLevel < lvl := by
    rcases hl with hl | hl | hl <;> rw [hl] <;> decide
  have hle : newLevel cooConf.Level ≤ lvl := le_of_lt (lt_of_le_of_lt hb hgt)
  have hfil := New_filter_enabled_of_le JSON stamp opens ec cooConf app lvl hle
  have hne : (New JSON stamp opens ec cooConf app).core.cores ≠ [] := by
    rw [New_cores]; exact newCores_ne_nil _ _ _ _ _ hrec
  have hen : (New JSON stamp opens ec cooConf app).core.Enabled lvl = true := by
    rw [Core.Enabled_eq_any]
    by_contra hcon
    rw [Bool.not_eq_true, ← filter_enabled_eq_nil, hfil] at hcon
    exact hne hcon
  obtain ⟨ce, effs, hc, -, hcores, -, -, -⟩ := check_of_enabled _ rt lvl msg hen
  exact ⟨hb, hgt, hen, ce, by rw [hc], by rw [hcores, hfil], by rw [hcores, hfil]; exact hne⟩

/-- Witness for C10: with the level `error`, `Fatal` is enabled on the logger. -/
theorem escalating_levels_always_enabled_witness :
    (∃ e ∈ ({ defaultLogConfig with Level := "error" } : CooLogConfig).Encoder,
      e = CONSOLE ∨ e = "json") ∧
    (New "json" stampSample opensAll EncoderConfig.zero
      { defaultLogConfig with Level := "error" } "app").core.Enabled FatalLevel = true :=
  ⟨⟨"console", by decide, Or.inl (by decide)⟩,
   (escalating_levels_always_enabled "json" stampSample opensAll EncoderConfig.zero
      { defaultLogConfig with Level := "error" } "app" Runtime.sample FatalLevel "dead"
      ⟨"console", by decide, Or.inl (by decide)⟩ (Or.inr (Or.inr rfl))).2.2.1⟩

/-- C4, as stated, fails: with the two encoder kinds console and structured and the one
destination `stderr`, which opens, `Error("boom")` writes two entries to that
destination, the first in the console encoder and the second in the structured one. -/
theorem two_encoders_write_twice :
    ((Error (cooOf confBoth) Runtime.sample [.str "boom"]).filter
      (Effect.isWriteTo "stderr")).length = 2 ∧
    (Error (cooOf confBoth) Runtime.sample [.str "boom"]).filterMap Effect.writeKind =
      [.console, .json] := by
  decide

/-- C4, amended: for every configuration whose output destinations all open and every
severity at or above the threshold, the writes of one log call are exactly these: for
each recognised encoder kind of the configured list, in configured order, one write of
the entry in the encoder of that kind (console text for `console`, structured for
`utils.JSON`, both built on the resolved encoder configuration) to every configured
destination in order.  A destination so receives as many entries as there are recognised
encoder kinds, times its number of occurrences among the outputs. -/
theorem one_entry_per_encoder_per_destination (JSON : String) (stamp : Nat → String)
    (opens : String → Bool) (ec : EncoderConfig) (cooConf : CooLogConfig) (app : String)
    (rt : Runtime) (lvl : Level) (msg : String) (d : String)
    (hopen : ∀ p ∈ newOutputs app stamp 0 cooConf.OutPuts, opens p = true)
    (h : newLevel cooConf.Level ≤ lvl) :
    ∃ ent : Entry, ent.Message = msg ∧ ent.Level = lvl ∧
      (logCall (New JSON stamp opens ec cooConf app) rt lvl msg).filter Effect.isWrite =
        specWrites ent (newEncoderConfig cooConf ec)
          (newOutputs app stamp 0 cooConf.OutPuts)
          (recognisedKinds JSON cooConf.Encoder) ∧
      ((logCall (New JSON stamp opens ec cooConf app) rt lvl msg).filter
          (Effect.isWriteTo d)).length =
        (recognisedKinds JSON cooConf.Encoder).length *
          (newOutputs app stamp 0 cooConf.OutPuts).count d := by
  have hfil := New_filter_enabled_of_le JSON stamp opens ec cooConf app lvl h
  have hcores : (New JSON stamp opens ec cooConf app).core.cores =
      (recognisedKinds JSON cooConf.Encoder).map
        (fun k => { enab := newLevel cooConf.Level,
                    enc := { kind := k, cfg := newEncoderConfig cooConf ec },
                    out := some (newOutputs app stamp 0 cooConf.OutPuts) }) := by
    rw [New_cores, zapOpen_of_all opens _ hopen, newCores_eq_map]
  have hout : ∀ c ∈ (New JSON stamp opens ec cooConf app).core.cores, c.out ≠ none := by
    intro c hc
    rw [hcores] at hc
    obtain ⟨k, _, rfl⟩ := List.mem_map.mp hc
    simp
  have hexp : ∀ ent : Entry,
      expectedWrites ent (New JSON stamp opens ec cooConf app).core.cores =
        specWrites ent (newEncoderConfig cooConf ec)
          (newOutputs app stamp 0 cooConf.OutPuts)
          (recognisedKinds JSON cooConf.Encoder) := by
    intro ent
    rw [hcores, expectedWrites_map]
  have key : ∃ ent : Entry, ent.Message = msg ∧ ent.Level = lvl ∧
      (logCall (New JSON stamp opens ec cooConf app) rt lvl msg).filter Effect.isWrite =
        expectedWrites ent (New JSON stamp opens ec cooConf app).core.cores := by
    cases hen : (New JSON stamp opens ec cooConf app).core.Enabled lvl with
    | false =>
      have hnil : (New JSON stamp opens ec cooConf app).core.cores = [] := by
        rw [← hfil, filter_enabled_eq_nil, ← Core.Enabled_eq_any]; exact hen
      refine ⟨baseEntry (New JSON stamp opens ec cooConf app) rt lvl msg, rfl, rfl, ?_⟩
      rw [logCall_of_disabled _ _ _ _ hen, hnil]
      exact filter_eq_nil_of_forall_false _ _
        (fun e he => ((actionEffects_escalation _ _).1 e he).2)
    | true =>
      obtain ⟨ce, effs, hlog, -, hce, hm, hl, heffs⟩ := logCall_of_enabled _ rt lvl msg hen
      rw [hfil] at hce
      obtain ⟨body, hW, -, hbody, -⟩ :=
        CheckedEntry.Write_of_open ce rt (by rw [hce]; exact hout)
      refine ⟨ce.Entry, hm, hl, ?_⟩
      rw [hlog, hW, List.filter_append, List.filter_append, hbody,
        filter_eq_nil_of_forall_false _ effs (fun e he => (heffs e he).2),
        filter_eq_nil_of_forall_false _ _
          (fun e he => ((actionEffects_escalation _ _).1 e he).2),
        hce]
      simp
  obtain ⟨ent, hm, hl, hw⟩ := key
  rw [hexp] at hw
  refine ⟨ent, hm, hl, hw, ?_⟩
  rw [filter_isWriteTo, hw, specWrites_count]

/-- Witness for C4 amended: at threshold `debug` with both encoder kinds and the
destination `stderr`, `Error` writes twice to `stderr`, once per encoder kind. -/
theorem one_entry_per_encoder_per_destination_witness :
    (∀ p ∈ newOutputs "app" stampSample 0 confBoth.OutPuts, opensAll p = true) ∧
    newLevel confBoth.Level ≤ ErrorLevel ∧
    recognisedKinds "json" confBoth.Encoder = [.console, .json] ∧
    ((logCall (cooOf confBoth) Runtime.sample ErrorLevel "boom").filter
      (Effect.isWriteTo "stderr")).length = 2 :=
  ⟨fun _ _ => rfl, by decide, by decide,
   (one_entry_per_encoder_per_destination "json" stampSample opensAll EncoderConfig.zero
      confBoth "app" Runtime.sample ErrorLevel "boom" "stderr" (fun _ _ => rfl)
      (by decide)).elim
    (fun _ hent => hent.2.2.2.trans (by decide))⟩

/-- C5: in the effects of one log call, on every logger, the effects split into a part
with no escalation followed either by the recorded action of the severity (abort for
Panic and for DevPanic in development, terminate for Fatal, nothing otherwise), in which
case every binding enabled for the severity holds a sink and the write of the entry to
each of its destinations is in the first part; or by the run-time panic of a write on a
nil sink, in which case no escalation action occurs at all.  So an escalation action
occurs at most once, is the last effect, and comes after every write; when every enabled
binding holds a sink it occurs exactly once for a severity that has one.  `DPanic`,
`Panic` and `Fatal` are this call at their severity. -/
theorem escalation_after_all_writes (Coo : CooLogger) (rt : Runtime) (lvl : Level)
    (msg : String) (details : List Value) :
    (∃ (pre : List Effect) (ent : Entry),
      ent.Message = msg ∧ ent.Level = lvl ∧
      (∀ e ∈ pre, e.isEscalation = false) ∧
      ((logCall Coo rt lvl msg =
            pre ++ actionEffects (specAction Coo.development lvl) msg ∧
          ∀ c ∈ Coo.core.cores, c.Enabled lvl = true →
            ∃ out, c.out = some out ∧ ∀ d ∈ out, Effect.write d c.enc ent ∈ pre) ∨
        (logCall Coo rt lvl msg = pre ++ [Effect.nilDeref] ∧
          (∀ e ∈ logCall Coo rt lvl msg, e.isEscalation = false) ∧
          ∃ c ∈ Coo.core.cores, c.Enabled lvl = true ∧ c.out = none))) ∧
    (∀ e ∈ actionEffects (specAction Coo.development lvl) msg,
      e.isEscalation = true ∧ e.isWrite = false) ∧
    ((logCall Coo rt lvl msg).filter Effect.isEscalation).length ≤ 1 ∧
    ((∀ c ∈ Coo.core.cores, c.Enabled lvl = true → c.out ≠ none) →
      ((logCall Coo rt lvl msg).filter Effect.isEscalation).length =
        (if specAction Coo.development lvl = .WriteThenNoop then 0 else 1)) ∧
    actionEffects (specAction Coo.development PanicLevel) msg = [Effect.panic msg] ∧
    actionEffects (specAction Coo.development FatalLevel) msg = [Effect.exit] ∧
    actionEffects (specAction Coo.development DPanicLevel) msg =
      (if Coo.development = true then [Effect.panic msg] else []) ∧
    DPanic Coo rt details = logCall Coo rt DPanicLevel (Sprint details) ∧
    Panic Coo rt details = logCall Coo rt PanicLevel (Sprint details) ∧
    Fatal Coo rt details = logCall Coo rt FatalLevel (Sprint details) := by
  have hact := actionEffects_escalation (specAction Coo.development lvl) msg
  have key : ∃ (pre : List Effect) (ent : Entry),
      ent.Message = msg ∧ ent.Level = lvl ∧
      (∀ e ∈ pre, e.isEscalation = false) ∧
      ((logCall Coo rt lvl msg =
            pre ++ actionEffects (specAction Coo.development lvl) msg ∧
          ∀ c ∈ Coo.core.cores, c.Enabled lvl = true →
            ∃ out, c.out = some out ∧ ∀ d ∈ out, Effect.write d c.enc ent ∈ pre) ∨
        (logCall Coo rt lvl msg = pre ++ [Effect.nilDeref] ∧
          (∀ e ∈ logCall Coo rt lvl msg, e.isEscalation = false) ∧
          ∃ c ∈ Coo.core.cores, c.Enabled lvl = true ∧ c.out = none)) := by
    cases hen : Coo.core.Enabled lvl with
    | false =>
      have hnone : ∀ c ∈ Coo.core.cores, c.Enabled lvl = false := by
        rw [Core.Enabled_eq_any, List.any_eq_false] at hen
        intro c hc
        simpa using hen c hc
      refine ⟨[], baseEntry Coo rt lvl msg, rfl, rfl, by simp, Or.inl ⟨?_, ?_⟩⟩
      · rw [logCall_of_disabled _ _ _ _ hen]; rfl
      · intro c hc hce
        rw [hnone c hc] at hce
        exact absurd hce (by decide)
    | true =>
      obtain ⟨ce, effs, hlog, hs, hcores, hm, hl, heffs⟩ :=
        logCall_of_enabled Coo rt lvl msg hen
      rcases CheckedEntry.Write_spec ce rt with
        ⟨body, hW, hbody, -, hmem⟩ | ⟨body, hW, hbody, c, hc, hout⟩
      · refine ⟨effs ++ body, ce.Entry, hm, hl, ?_, Or.inl ⟨?_, ?_⟩⟩
        · intro e he
          rcases List.mem_append.mp he with he | he
          · exact (heffs e he).1
          · exact hbody e he
        · rw [hlog, hW, hs, hm, List.append_assoc]
        · intro c hc hce
          have hc2 : c ∈ ce.cores := by
            rw [hcores]; exact List.mem_filter.mpr ⟨hc, hce⟩
          obtain ⟨out, ho, hd⟩ := hmem c hc2
          exact ⟨out, ho, fun d hd2 => List.mem_append.mpr (Or.inr (hd d hd2))⟩
      · refine ⟨effs ++ body, ce.Entry, hm, hl, ?_, Or.inr ⟨?_, ?_, ?_⟩⟩
        · intro e he
          rcases List.mem_append.mp he with he | he
          · exact (heffs e he).1
          · exact hbody e (List.mem_append.mpr (Or.inl he))
        · rw [hlog, hW, List.append_assoc]
        · intro e he
          rw [hlog, hW] at he
          rcases List.mem_append.mp he with he | he
          · exact (heffs e he).1
          · exact hbody e he
        · rw [hcores] at hc
          obtain ⟨hc1, hc2⟩ := List.mem_filter.mp hc
          exact ⟨c, hc1, hc2, hout⟩
  have hcrash : ∀ pre : List Effect, (∀ e ∈ pre, e.isEscalation = false) →
      ((pre ++ [Effect.nilDeref]).filter Effect.isEscalation).length = 0 := by
    intro pre hpre
    rw [filter_eq_nil_of_forall_false]
    · rfl
    · intro e he
      rcases List.mem_append.mp he with he | he
      · exact hpre e he
      · simp only [List.mem_singleton] at he
        subst he; rfl
  refine ⟨key, hact.1, ?_, ?_, ?_, ?_, ?_, rfl, rfl, rfl⟩
  · obtain ⟨pre, ent, -, -, hpre, ⟨hlog, -⟩ | ⟨hlog, -, -⟩⟩ := key
    · rw [hlog, escalation_count pre _ msg hpre]
      split_ifs <;> decide
    · rw [hlog, hcrash pre hpre]
      decide
  · intro hopen
    obtain ⟨pre, ent, -, -, hpre, ⟨hlog, -⟩ | ⟨-, -, c, hc, hce, hout⟩⟩ := key
    · rw [hlog, escalation_count pre _ msg hpre]
    · exact absurd hout (hopen c hc hce)
  · rfl
  · rfl
  · cases Coo.development <;> rfl

/-- Witness for C5: `Fatal("dead")` on the default logger looks up the caller, writes
the entry to `stderr`, syncs it, and only then terminates; on a logger with a
destination that did not open, `Fatal("dead")` dies in the write and never terminates
by the recorded action. -/
theorem escalation_after_all_writes_witness :
    (∀ c ∈ (cooOf defaultLogConfig).core.cores, c.Enabled FatalLevel = true →
      c.out ≠ none) ∧
    ((Fatal (cooOf defaultLogConfig) Runtime.sample [.str "dead"]).filter
      Effect.isEscalation).length = 1 ∧
    Fatal (cooOf defaultLogConfig) Runtime.sample [.str "dead"] =
      [Effect.callerLookup 2,
       Effect.write "stderr"
         { kind := .console, cfg := newEncoderConfig defaultLogConfig EncoderConfig.zero }
         { Level := FatalLevel, Time := 7, LoggerName := "u", Message := "dead",
           Caller := { Defined := true, File := "main.go", Line := 10 }, Stack := "" },
       Effect.sync "stderr",
       Effect.exit] ∧
    Fatal (New "json" stampSample opensButOne EncoderConfig.zero confUnopenable "app")
      Runtime.sample [.str "dead"] = [Effect.callerLookup 2, Effect.nilDeref] :=
  ⟨by decide,
   ((escalation_after_all_writes (cooOf defaultLogConfig) Runtime.sample FatalLevel
      "dead" [.str "dead"]).2.2.2.1 (by decide)).trans (by decide),
   by decide, by decide⟩

/-- C7, as stated, fails: the time value `ISO8601` is not one of the documented values
`local`, `iso8601`, `millis`, `nanos`, yet it resolves to the ISO-8601 rendering and not
to the default epoch-seconds rendering. -/
theorem uppercase_iso8601_not_default :
    "ISO8601" ∉ ["local", "iso8601", "millis", "nanos"] ∧
    (timeEncoder { defaultLogConfig with Encode := [("time", "ISO8601")] }
      EncoderConfig.zero).EncodeTime = some .ISO8601TimeEncoder ∧
    (timeEncoder { defaultLogConfig with Encode := [("time", "ISO8601")] }
      EncoderConfig.zero).EncodeTime ≠ some .EpochTimeEncoder := by
  decide

/-- C7, amended: resolution of the four format choices always yields a rendering, and
every value (an absent key reads as the empty string) other than `capital`,
`capitalColor`, `color` for the level, other than `local`, `iso8601`, `ISO8601`,
`millis`, `nanos` for the time, other than `string`, `nanos` for the duration, and
other than `full` for the caller yields the default: lowercase level, epoch-seconds
time, fractional-seconds duration, shortened caller.  The time value `ISO8601` yields
the ISO-8601 rendering. -/
theorem format_choice_defaults (cooConf : CooLogConfig) (ec : EncoderConfig) :
    (cooConf.Encode.get "level" ∉ ["capital", "capitalColor", "color"] →
      (newEncoderConfig cooConf ec).EncodeLevel = some .LowercaseLevelEncoder) ∧
    (cooConf.Encode.get "time" ∉ ["local", "iso8601", "ISO8601", "millis", "nanos"] →
      (newEncoderConfig cooConf ec).EncodeTime = some .EpochTimeEncoder) ∧
    (cooConf.Encode.get "duration" ∉ ["string", "nanos"] →
      (newEncoderConfig cooConf ec).EncodeDuration = some .SecondsDurationEncoder) ∧
    (cooConf.Encode.get "caller" ≠ "full" →
      (newEncoderConfig cooConf ec).EncodeCaller = some .ShortCallerEncoder) ∧
    (cooConf.Encode.get "time" = "ISO8601" →
      (newEncoderConfig cooConf ec).EncodeTime = some .ISO8601TimeEncoder) ∧
    (∀ k : String, cooConf.Encode.lookup k = none → cooConf.Encode.get k = "") ∧
    (newEncoderConfig cooConf ec).EncodeLevel ≠ none ∧
    (newEncoderConfig cooConf ec).EncodeTime ≠ none ∧
    (newEncoderConfig cooConf ec).EncodeDuration ≠ none ∧
    (newEncoderConfig cooConf ec).EncodeCaller ≠ none := by
  obtain ⟨hl, ht, hd, hc⟩ := newEncoderConfig_fields cooConf ec
  refine ⟨?_, ?_, ?_, ?_, ?_, ?_, ?_, ?_, ?_, ?_⟩
  · intro h
    simp only [List.mem_cons, List.mem_singleton, List.not_mem_nil, or_false, not_or] at h
    rw [hl]; simp [h]
  · intro h
    simp only [List.mem_cons, List.mem_singleton, List.not_mem_nil, or_false, not_or] at h
    rw [ht]; simp [h]
  · intro h
    simp only [List.mem_cons, List.mem_singleton, List.not_mem_nil, or_false, not_or] at h
    rw [hd]; simp [h]
  · intro h
    rw [hc]; simp [h]
  · intro h
    rw [ht, h]; simp
  · intro k hk
    simp [StrMap.get, hk]
  · rw [hl]; simp
  · rw [ht]; simp
  · rw [hd]; simp
  · rw [hc]; simp

/-- Witness for C7 amended: with no `Encode` map at all, the time choice resolves to the
epoch-seconds default. -/
theorem format_choice_defaults_witness :
    ({ defaultLogConfig with Encode := [] } : CooLogConfig).Encode.get "time" ∉
      ["local", "iso8601", "ISO8601", "millis", "nanos"] ∧
    (newEncoderConfig { defaultLogConfig with Encode := [] } EncoderConfig.zero).EncodeTime =
      some .EpochTimeEncoder :=
  ⟨by decide,
   (format_choice_defaults { defaultLogConfig with Encode := [] } EncoderConfig.zero).2.1
     (by decide)⟩

/-- C8: with the configuration file of an unsupported type found (profile type `toml`)
and no configuration stored yet, `buildLogConfig` leaves the configuration absent, and
`Init` ends in the nil dereference of `New`; when the file is not found the default
configuration is stored. -/
theorem unsupported_type_leaves_config_absent :
    Boot.sample.AppFile "config" "dev" "toml" "log.toml" = some "config/dev/log.toml" ∧
    buildLogConfig Boot.sample none "dev" "toml" = none ∧
    Init Boot.sample stampSample opensAll EncoderConfig.zero none "app" "dev" "toml" =
      none ∧
    buildLogConfig { Boot.sample with AppFile := fun _ _ _ _ => none } none "dev" "toml" =
      some defaultLogConfig := by
  decide

/-- C9, as stated, fails: the two integer arguments 1 and 2 give the message `1 2`, not
the concatenation `12`, and that is the message of the entry `check` returns. -/
theorem sprint_inserts_space :
    Sprint [.int 1, .int 2] = "1 2" ∧
    concatOperands [.int 1, .int 2] = "12" ∧
    Sprint [.int 1, .int 2] ≠ concatOperands [.int 1, .int 2] ∧
    (check (cooOf defaultLogConfig) Runtime.sample InfoLevel
      (Sprint [.int 1, .int 2])).1.map (fun ce => ce.Entry.Message) = some "1 2" := by
  decide

/-- C9, amended: for each of the seven severity functions and every sequence of
arguments, of any type, the message passed to `check` is the default formatting of each
argument in order, with a single space between two adjacent arguments when neither is of
string kind and nothing otherwise; when of every two adjacent arguments at least one is
a string, it is the plain concatenation with no separator.  A single argument gives its
default formatting: a string itself, an integer its decimal digits, a boolean `true` or
`false`, nil `<nil>`, an error its text. -/
theorem message_is_joined_operands (Coo : CooLogger) (rt : Runtime) (details : List Value) :
    Sprint details = joinOperands details ∧
    Debug Coo rt details = logCall Coo rt DebugLevel (joinOperands details) ∧
    Info Coo rt details = logCall Coo rt InfoLevel (joinOperands details) ∧
    Warn Coo rt details = logCall Coo rt WarnLevel (joinOperands details) ∧
    Error Coo rt details = logCall Coo rt ErrorLevel (joinOperands details) ∧
    DPanic Coo rt details = logCall Coo rt DPanicLevel (joinOperands details) ∧
    Panic Coo rt details = logCall Coo rt PanicLevel (joinOperands details) ∧
    Fatal Coo rt details = logCall Coo rt FatalLevel (joinOperands details) ∧
    (adjacentString details = true → Sprint details = concatOperands details) ∧
    (∀ v : Value, Sprint [v] = v.text) ∧
    (∀ v w : Value, Sprint [v, w] =
      v.text ++ (if v.isString = false ∧ w.isString = false then " " else "") ++ w.text) ∧
    (∀ s : String, Sprint [Value.str s] = s) ∧
    (∀ i : Int, Sprint [Value.int i] = toString i) ∧
    Sprint [Value.bool true] = "true" ∧ Sprint [Value.bool false] = "false" ∧
    Sprint [Value.nil] = "<nil>" ∧
    (∀ m : String, Sprint [Value.error m] = m) ∧
    (∀ (s : String) (i : Int), Sprint [Value.str s, Value.int i] = s ++ toString i) ∧
    (∀ i j : Int, Sprint [Value.int i, Value.int j] = toString i ++ " " ++ toString j) ∧
    (∀ (b : Bool) (m : String), Sprint [Value.bool b, Value.nil, Value.error m] =
      (if b then "true" else "false") ++ " " ++ "<nil>" ++ " " ++ m) := by
  have h := Sprint_eq_joinOperands details
  refine ⟨h, ?_, ?_, ?_, ?_, ?_, ?_, ?_, ?_, ?_, ?_, ?_, ?_, ?_, ?_, ?_, ?_, ?_, ?_, ?_⟩
  · rw [Debug, h]
  · rw [Info, h]
  · rw [Warn, h]
  · rw [Error, h]
  · rw [DPanic, h]
  · rw [Panic, h]
  · rw [Fatal, h]
  · intro hc
    rw [h, joinOperands_eq_concat details hc]
  · intro v
    rw [Sprint_eq_joinOperands]; rfl
  · intro v w
    rw [Sprint_eq_joinOperands]
    cases hv : v.isString <;> cases hw : w.isString <;> simp [joinOperands, hv, hw]
  · intro s
    rw [Sprint_eq_joinOperands]; rfl
  · intro i
    rw [Sprint_eq_joinOperands]; rfl
  · decide
  · decide
  · decide
  · intro m
    rw [Sprint_eq_joinOperands]; rfl
  · intro s i
    rw [Sprint_eq_joinOperands]
    simp [joinOperands, Value.str, Value.int]
  · intro i j
    rw [Sprint_eq_joinOperands]
    simp [joinOperands, Value.int, String.append_assoc]
  · intro b m
    rw [Sprint_eq_joinOperands]
    cases b <;> rfl

/-- Witness for C9 amended: a string between two integers joins them with no separator. -/
theorem message_is_joined_operands_witness :
    adjacentString [Value.int 1, Value.str "-", Value.int 2] = true ∧
    Sprint [Value.int 1, Value.str "-", Value.int 2] = "1-2" :=
  ⟨by decide,
   ((message_is_joined_operands (cooOf defaultLogConfig) Runtime.sample
      [Value.int 1, Value.str "-", Value.int 2]).2.2.2.2.2.2.2.2.1 (by decide)).trans
     (by decide)⟩

end Clog
